import Mathlib

/-!
Verification development for the build-DAG core of a rule-based workflow
engine (`snakemake/dag.py`).  The `DAG` class state and its operations are
shallowly embedded: Python dicts become insertion-ordered association lists,
Python sets become duplicate-free lists with membership semantics, exceptions
become an explicit `Exn` value threaded together with the mutated state (a
Python exception propagates while keeping all mutations made so far), and the
recursive resolver gets an explicit fuel parameter (Python's recursion-depth
`RuntimeError`, which `DAG.update` converts to a `RuleException`, corresponds
to running out of fuel).

External collaborators (`Job`, `Rule`, `IOFile`, the persistence probe) are
not part of `dag.py`; they are modelled from the specification's collaborator
contracts as plain data (`Job` fields) plus a `World` record of tabulated
collaborator functions.
-/

namespace SnakemakeDag

/-- Abstract file handles; identity is by normalised path, here a number. -/
abbrev FileId := Nat

/-- Wildcard bindings, as an association of wildcard name to value. -/
abbrev Wildcards := List (Nat × Nat)

/-- Modelled from the spec: a `Job` is a rule plus a concrete wildcard
binding, exposing concrete file lists (`input`, `output`, `temp_output`,
`dynamic_input`, `dynamic_output`), the discovered `dynamic_wildcards`, the
`targetfile` that created it, and a total preference order used to select
among ambiguous producers (`rank`: a higher rank means more preferred, and
`j < k` in Python is `j.rank < k.rank`). -/
structure Job where
  rule : Nat
  target : Option FileId
  input : List FileId
  output : List FileId
  tempOutput : List FileId
  dynamicInput : List FileId
  dynamicOutput : List FileId
  dynamicWildcards : Wildcards
  rank : Nat
deriving DecidableEq, Repr

/-- Modelled from the spec: the collaborator contracts consumed by the DAG
(`Rule.is_producer`, `Job` construction from a rule and a target file or
wildcards, `Rule.dynamic_branch`, `Workflow.persistence.incomplete`, and the
filesystem probe `mtime`), tabulated as functions so every embedded operation
stays executable.  Rules are identified by number. -/
structure World where
  mtime : FileId → Option Nat
  isProducer : Nat → FileId → Bool
  jobForTarget : Nat → FileId → Job
  dynBranchOut : Nat → Wildcards → Nat × Wildcards
  dynBranchIn : Nat → Wildcards → Option Nat
  jobFromWildcards : Nat → Wildcards → Job
  jobFromTarget : Nat → Option FileId → Job
  incomplete : Job → Bool

/-- Modelled from the spec: `IOFile.exists` — a file exists when the
filesystem reports a modification time for it. -/
def wExists (w : World) (f : FileId) : Bool :=
  (w.mtime f).isSome

/-- Modelled from the spec: `IOFile.is_newer(t)` — an existing file is newer
than time `t` when its mtime exceeds `t`. -/
def wIsNewer (w : World) (f : FileId) (t : Nat) : Bool :=
  match w.mtime f with
  | some m => decide (t < m)
  | none => false

/-- Modelled from the spec: `Job.missing_input` — the input files that do not
exist on disk. -/
def jobMissingInput (w : World) (job : Job) : List FileId :=
  job.input.filter (fun f => !(wExists w f))

/-- Modelled from the spec: `Job.missing_output(requested?)` — the outputs
not present on disk, restricted to `requested` when given. -/
def jobMissingOutput (w : World) (job : Job) (requested : Option (List FileId)) :
    List FileId :=
  match requested with
  | none => job.output.filter (fun f => !(wExists w f))
  | some req => job.output.filter (fun f => req.contains f && !(wExists w f))

/-- Modelled from the spec: `Job.output_mintime` — the minimum mtime over the
job's outputs that exist, `none` when no output exists. -/
def jobOutputMintime (w : World) (job : Job) : Option Nat :=
  (job.output.filterMap w.mtime).min?

/-- Modelled from the spec: the per-job `Reason` record of `update_needrun`;
it is non-empty ("this job must run") iff any field is set. -/
structure Reason where
  forced : Bool := false
  noio : Bool := false
  missingOutput : List FileId := []
  incompleteOutput : List FileId := []
  updatedInput : List FileId := []
  updatedInputRun : List FileId := []
deriving DecidableEq, Repr, Inhabited

/-- Truthiness of a `Reason` (Python `bool(reason)`). -/
def Reason.nonempty (r : Reason) : Bool :=
  r.forced || r.noio || !r.missingOutput.isEmpty || !r.incompleteOutput.isEmpty
    || !r.updatedInput.isEmpty || !r.updatedInputRun.isEmpty

/-- The exceptions raised by `dag.py`: `MissingRuleException`,
`MissingInputException` (rule, files with no producer, buffered causes),
`CyclicGraphException` (rule, file), `AmbiguousRuleException` (file and the
two competing rules), the `RuleException` that `update` substitutes for a
recursion-depth `RuntimeError` (here: fuel exhaustion), and Python's
`KeyError` from `set.remove` on an absent element. -/
inductive Exn where
  | missingRule (file : FileId)
  | missingInput (rule : Nat) (files : List FileId) (causes : List Exn)
  | cyclic (rule : Nat) (file : Option FileId)
  | ambiguous (file : Option FileId) (rule1 rule2 : Nat)
  | ruleExn
  | keyError

/-- The exception classes buffered by the resolver's `except
(MissingInputException, CyclicGraphException)` handlers. -/
def Exn.bufferable : Exn → Bool
  | .missingInput _ _ _ => true
  | .cyclic _ _ => true
  | _ => false

/-- Whether an exception is an `AmbiguousRuleException` (used to state that
`ignore_ambiguity` suppresses all ambiguity errors). -/
def Exn.isAmbErr : Exn → Bool
  | .ambiguous _ _ _ => true
  | _ => false

section AssocHelpers

variable {α : Type} {β : Type} [DecidableEq α]

/-- Membership test on a list, mirroring Python's `in` on sets and lists. -/
def melem (x : α) : List α → Bool
  | [] => false
  | y :: t => if y = x then true else melem x t

/-- Python `set.add`: append the element unless already present. -/
def sadd (s : List α) (x : α) : List α :=
  if melem x s then s else s ++ [x]

/-- Python `set.remove` / conditional discard: drop every occurrence. -/
def sdel (s : List α) (x : α) : List α :=
  s.filter (fun y => !(decide (y = x)))

/-- Lookup in an insertion-ordered association list (Python `dict` access). -/
def aget (m : List (α × β)) (k : α) : Option β :=
  match m with
  | [] => none
  | (a, b) :: t => if a = k then some b else aget t k

/-- Lookup with a default (`defaultdict` read without entry creation; all
properties proved here are membership properties, for which the empty entry a
Python `defaultdict` read creates is irrelevant). -/
def agetD (m : List (α × β)) (k : α) (d : β) : β :=
  (aget m k).getD d

/-- Python `dict` assignment: replace in place, else append (insertion
order). -/
def aset (m : List (α × β)) (k : α) (v : β) : List (α × β) :=
  match m with
  | [] => [(k, v)]
  | (a, b) :: t => if a = k then (k, v) :: t else (a, b) :: aset t k v

/-- Python `del dict[k]`, as erase-if-present (where `dag.py` executes it the
key is present whenever the graph invariants hold). -/
def aerase (m : List (α × β)) (k : α) : List (α × β) :=
  match m with
  | [] => []
  | (a, b) :: t => if a = k then aerase t k else (a, b) :: aerase t k

/-- The keys of an association list. -/
def akeys (m : List (α × β)) : List α :=
  m.map Prod.fst

/-- Python `set.isdisjoint`. -/
def disjointL (s t : List α) : Bool :=
  s.all (fun x => !(melem x t))

/-- Python `set.update` / union, keeping the left operand's order. -/
def sunion (s t : List α) : List α :=
  t.foldl sadd s

end AssocHelpers

/-- One direction of the graph store: `job ↦ (neighbour ↦ set of files)`. -/
abbrev EdgeMap := List (Job × List (Job × List FileId))

/-- The `DAG` object state: the two edge maps, the derived sets, the rule
set (by rule id), the configuration, and the cached `_len`.  The
`highestPriority` set models which jobs `update_priority` has raised to
`Job.HIGHEST_PRIORITY` (the priority lives on the external `Job` object in
Python, which does not affect job identity). -/
structure DAGState where
  dependencies : EdgeMap
  depending : EdgeMap
  needrun : List Job
  reason : List (Job × Reason)
  finished : List Job
  dynamic : List Job
  len : Int
  rules : List Nat
  ignoreAmbiguity : Bool
  targetfiles : List FileId
  targetrules : List Nat
  priorityfiles : List FileId
  priorityrules : List Nat
  targetjobs : List Job
  readyJobs : List Job
  forcerules : List Nat
  forcefiles : List FileId
  omitforce : List Job
  highestPriority : List Job
deriving Repr

/-- Files recorded on the edge from `a` to inner key `b` of edge map `m`
(the set `m[a][b]`, empty when either key is absent). -/
def filesOf (m : EdgeMap) (a b : Job) : List FileId :=
  agetD (agetD m a []) b []

/-- One row of an edge map (the inner dict `m[a]`, empty when absent). -/
def rowOf (m : EdgeMap) (a : Job) : List (Job × List FileId) :=
  agetD m a []

/-- Record one file on edge `a → b` of an edge map:
`m[a][b].add(f)` with `defaultdict` creation of both levels. -/
def mapAdd (m : EdgeMap) (a b : Job) (f : FileId) : EdgeMap :=
  aset m a (aset (rowOf m a) b (sadd (filesOf m a b) f))

/-- The paired mutation `dependencies[consumer][producer].add(f)` together
with `depending[producer][consumer].add(f)` from `DAG.update_`. -/
def addEdgePair (st : DAGState) (consumer producer : Job) (f : FileId) : DAGState :=
  { st with
    dependencies := mapAdd st.dependencies consumer producer f,
    depending := mapAdd st.depending producer consumer f }

/-- The paired mutation `dependencies[consumer][producer].update(files)`
together with `depending[producer][consumer].update(files)` from
`DAG.replace_job`. -/
def addEdgeFiles (st : DAGState) (consumer producer : Job) (files : List FileId) :
    DAGState :=
  files.foldl (fun s f => addEdgePair s consumer producer f) st

/-- The spec's bidirectional-consistency invariant on the graph store:
`f ∈ deps[j][p] ⇔ f ∈ rdeps[p][j]`. -/
def edgesSymmetric (st : DAGState) : Prop :=
  ∀ a b f, f ∈ filesOf st.dependencies a b ↔ f ∈ filesOf st.depending b a

/-- One iteration of the first loop of `DAG.delete_job`: delete
`dependencies[consumer][job]`. -/
def dceStep (job : Job) (s : DAGState) (cp : Job × List FileId) : DAGState :=
  { s with
    dependencies := aset s.dependencies cp.1 (aerase (rowOf s.dependencies cp.1) job) }

/-- The first loop of `DAG.delete_job`: for each consumer of `job`, delete
`dependencies[consumer][job]`. -/
def deleteConsumerEdges (st : DAGState) (job : Job) : DAGState :=
  (rowOf st.depending job).foldl (dceStep job) st

/-- The derived-set epilogue of `DAG.delete_job`: drop the job from
`needrun` (decrementing `_len` and dropping its reason), `finished`,
`dynamic` and the ready set. -/
def deleteSets (st : DAGState) (job : Job) : DAGState :=
  let st5 :=
    if melem job st.needrun then
      { st with
        len := st.len - 1,
        needrun := sdel st.needrun job,
        reason := aerase st.reason job }
    else st
  let st6 :=
    if melem job st5.finished then { st5 with finished := sdel st5.finished job }
    else st5
  let st7 :=
    if melem job st6.dynamic then { st6 with dynamic := sdel st6.dynamic job }
    else st6
  if melem job st7.readyJobs then { st7 with readyJobs := sdel st7.readyJobs job }
  else st7

mutual

/-- Embeds `DAG.delete_job`: remove the job from both edge maps and every
derived set; with `recursive`, delete any former producer left with no
remaining consumers.  Python recursion is bounded here by fuel; at fuel zero
the call leaves the state unchanged. -/
def delete_job (fuel : Nat) (st : DAGState) (job : Job) (recursive : Bool) :
    DAGState :=
  match fuel with
  | 0 => st
  | f + 1 =>
    let st1 := deleteConsumerEdges st job
    let st2 := { st1 with depending := aerase st1.depending job }
    let st3 := deleteProducers f st2 (rowOf st2.dependencies job) job recursive
    let st4 := { st3 with dependencies := aerase st3.dependencies job }
    deleteSets st4 job
termination_by (fuel, 0)

/-- The second loop of `DAG.delete_job`, over a snapshot of the job's
producers: delete `depending[producer][job]` and, when that leaves the
producer without consumers and the deletion is recursive, delete the producer
as well. -/
def deleteProducers (fuel : Nat) (st : DAGState)
    (ps : List (Job × List FileId)) (job : Job) (recursive : Bool) : DAGState :=
  match ps with
  | [] => st
  | pp :: rest =>
    let row := aerase (rowOf st.depending pp.1) job
    let s1 := { st with depending := aset st.depending pp.1 row }
    let s2 := if row.isEmpty && recursive then delete_job fuel s1 pp.1 true else s1
    deleteProducers fuel s2 rest job recursive
termination_by (fuel, ps.length + 1)

end

/-- Embeds `DAG.bfs`: breadth-first traversal of one edge map from a queue of
roots, with `visited` initialised to the roots, skipping the successors of any
node matching `stop` and not yielding it.  The worklist is bounded by fuel. -/
def bfsAux (fuel : Nat) (dir : EdgeMap) (queue visited : List Job)
    (stop : Job → Bool) : List Job :=
  match fuel, queue with
  | 0, _ => []
  | _, [] => []
  | f + 1, job :: rest =>
    if stop job then bfsAux f dir rest visited stop
    else
      let step := (rowOf dir job).foldl
        (fun qv nb =>
          if melem nb.1 qv.2 then qv else (qv.1 ++ [nb.1], sadd qv.2 nb.1))
        (rest, visited)
      job :: bfsAux f dir step.1 step.2 stop

/-- The `DAG.bfs` entry point: queue and visited both start as the roots. -/
def bfs (fuel : Nat) (dir : EdgeMap) (roots : List Job) (stop : Job → Bool) :
    List Job :=
  bfsAux fuel dir roots roots stop

/-- Embeds the `DAG.jobs` property: `bfs(self.dependencies, *self.targetjobs)`. -/
def jobsList (fuel : Nat) (st : DAGState) : List Job :=
  bfs fuel st.dependencies st.targetjobs (fun _ => false)

/-- Embeds `DAG._ready`: the finished set contains every producer of the job
that needs to run. -/
def jobReady (st : DAGState) (job : Job) : Bool :=
  (rowOf st.dependencies job).all
    (fun pp => !(melem pp.1 st.needrun) || melem pp.1 st.finished)

/-- Embeds `DAG.update_ready`: for each traversed job that needs to run, is
unfinished and is ready, add it to the ready set (nothing is ever removed). -/
def update_ready (fuel : Nat) (st : DAGState) : DAGState :=
  let js := (jobsList fuel st).filter (fun j => melem j st.needrun)
  { st with
    readyJobs := js.foldl
      (fun acc j =>
        if !(melem j st.finished) && jobReady st j then sadd acc j else acc)
      st.readyJobs }

/-- Embeds `DAG.requested_files`, i.e. `set(*self.depending[job].values())`:
with no consumer `set()` is empty, with one consumer it copies that consumer's
file set, and with two or more arguments the single-splat `set` call is a
`TypeError`, modelled as `none`. -/
def requested_files (st : DAGState) (job : Job) : Option (List FileId) :=
  match (rowOf st.depending job).map Prod.snd with
  | [] => some []
  | [v] => some v
  | _ :: _ :: _ => none

/-- The local `needed` lambda of `DAG.handle_temp`: some consumer of `jobP`
other than `job` is unfinished and still lists `f` among the files it
requires from `jobP`. -/
def tempNeeded (st : DAGState) (job jobP : Job) (f : FileId) : Bool :=
  (rowOf st.depending jobP).any
    (fun jf => !(melem jf.1 st.finished) && !(decide (jf.1 = job)) && melem f jf.2)

/-- Embeds `DAG.handle_temp`, returning the files removed (`f.remove()` is a
filesystem effect): for each producer and each of its temp outputs supplied to
`job`, remove the file unless some unfinished consumer other than `job` still
lists it among the files it requires from that producer. -/
def handle_temp (st : DAGState) (job : Job) : List FileId :=
  (rowOf st.dependencies job).foldl
    (fun acc pf =>
      acc ++ ((pf.1.tempOutput.filter (fun f => melem f pf.2)).filter
        (fun f => !(tempNeeded st job pf.1 f))))
    []

/-- Embeds `DAG.file2jobs`: one candidate job per rule producing the file,
`MissingRuleException` when there is none.  `self.rules` is kept as a list of
rule ids in insertion order. -/
def file2jobs (w : World) (st : DAGState) (file : FileId) :
    Except Exn (List Job) :=
  let js := (st.rules.filter (fun r => w.isProducer r file)).map
    (fun r => w.jobForTarget r file)
  if js.isEmpty then .error (.missingRule file) else .ok js

/-- Embeds `DAG.collect_potential_dependencies`: for each distinct input file
of the job, the candidate producers, silently dropping files with no producing
rule.  Python iterates `set(job.input)`; the model iterates the input list
with duplicates removed. -/
def collectPotential (w : World) (st : DAGState) (job : Job) :
    List (FileId × List Job) :=
  job.input.eraseDups.foldl
    (fun acc file =>
      match file2jobs w st file with
      | .ok js => acc ++ [(file, js)]
      | .error _ => acc) []

/-- Python's `file in job.input` for an optional file (`None in job.input` is
false). -/
def inInput (file : Option FileId) (job : Job) : Bool :=
  match file with
  | some f => melem f job.input
  | none => false

/-- Stable insertion placing the element after all entries it is not strictly
before, so that `pySort` agrees with Python's stable `sorted`. -/
def pyInsert (lt : Job → Job → Bool) (x : Job) : List Job → List Job
  | [] => [x]
  | y :: ys => if lt x y then x :: y :: ys else y :: pyInsert lt x ys

/-- Stable insertion sort by a strict comes-before test. -/
def pySort (lt : Job → Job → Bool) (l : List Job) : List Job :=
  l.foldl (fun acc x => pyInsert lt x acc) []

/-- The candidate order of `DAG.update`: `sorted(jobs, reverse=not
self.ignore_ambiguity)` — descending by the job order (preferred first) when
ambiguity is checked, ascending when it is ignored; both stable. -/
def sortCandidates (ignore : Bool) (l : List Job) : List Job :=
  if ignore then pySort (fun a b => a.rank < b.rank) l
  else pySort (fun a b => b.rank < a.rank) l

/-- The code after `DAG.update`'s candidate loop: with no producer chosen,
raise `CyclicGraphException` for the first recorded cycle, else re-raise the
first buffered exception; otherwise return the producer. -/
def updateEpilogue (st : DAGState) (producer : Option Job)
    (exceptions : List Exn) (cycles : List Job) (file : Option FileId) :
    DAGState × Except Exn (Option Job) :=
  match producer with
  | some p => (st, .ok (some p))
  | none =>
    match cycles with
    | j :: _ => (st, .error (.cyclic j.rule file))
    | [] =>
      match exceptions with
      | e :: _ => (st, .error e)
      | [] => (st, .ok none)

mutual

/-- Embeds `DAG.update`: sort the candidates, then run the selection loop.
Fuel exhaustion models the recursion-depth `RuntimeError` that `update`
converts into a fatal `RuleException`. -/
def update (fuel : Nat) (w : World) (st : DAGState) (jobs : List Job)
    (file : Option FileId) (visited : List Job) (skipUntilDynamic : Bool) :
    DAGState × Except Exn (Option Job) :=
  match fuel with
  | 0 => (st, .error .ruleExn)
  | f + 1 =>
    updateLoop f w st (sortCandidates st.ignoreAmbiguity jobs) none none [] []
      file visited skipUntilDynamic

/-- The candidate loop of `DAG.update`.  `prev` is the previous element of
the sorted list (`jobs[i-1]`), `producer` the last successful candidate,
`exceptions` the buffered `MissingInput`/`Cyclic` failures, `cycles` the
candidates skipped because they would close a cycle. -/
def updateLoop (fuel : Nat) (w : World) (st : DAGState) (pending : List Job)
    (prev producer : Option Job) (exceptions : List Exn) (cycles : List Job)
    (file : Option FileId) (visited : List Job) (skipUntilDynamic : Bool) :
    DAGState × Except Exn (Option Job) :=
  match pending with
  | [] => updateEpilogue st producer exceptions cycles file
  | job :: rest =>
    if inInput file job || melem job visited then
      updateLoop fuel w st rest (some job) producer exceptions (cycles ++ [job])
        file visited skipUntilDynamic
    else
      match update_ fuel w st job visited skipUntilDynamic with
      | (st1, .ok _) =>
        match prev with
        | some p =>
          if job.rank < p.rank || st.ignoreAmbiguity then
            updateEpilogue st1 producer exceptions cycles file
          else
            match producer with
            | some _ => (st1, .error (.ambiguous file job.rule p.rule))
            | none =>
              updateLoop fuel w st1 rest (some job) (some job) exceptions cycles
                file visited skipUntilDynamic
        | none =>
          updateLoop fuel w st1 rest (some job) (some job) exceptions cycles
            file visited skipUntilDynamic
      | (st1, .error e) =>
        if e.bufferable then
          updateLoop fuel w st1 rest (some job) producer (exceptions ++ [e])
            cycles file visited skipUntilDynamic
        else (st1, .error e)

/-- Embeds `DAG.update_`: memoise on presence in `dependencies`, create the
job's (empty) entry, resolve each input file through a recursive `update`
buffering `MissingInput`/`Cyclic` failures per file, record the produced edges
in both maps, then fail with `MissingInputException` (rolling back via a
non-recursive `delete_job`) when some missing input found no producer, and
finally mark the job dynamic when `skip_until_dynamic` is still set. -/
def update_ (fuel : Nat) (w : World) (st : DAGState) (job : Job)
    (visited : List Job) (skipUntilDynamic : Bool) :
    DAGState × Except Exn Unit :=
  match fuel with
  | 0 => (st, .error .ruleExn)
  | f + 1 =>
    if melem job (akeys st.dependencies) then (st, .ok ())
    else
      let visited1 := sadd visited job
      let st1 := { st with dependencies := aset st.dependencies job [] }
      let potential := collectPotential w st1 job
      let skip1 := skipUntilDynamic && job.dynamicOutput.isEmpty
      match updateDeps f w st1 potential job visited1 skip1 [] [] with
      | (st2, .error e) => (st2, .error e)
      | (st2, .ok pe) =>
        let st3 := pe.1.foldl
          (fun s fp =>
            match fp.2 with
            | some p => addEdgePair s job p fp.1
            | none => s) st2
        let missing := (jobMissingInput w job).filter
          (fun f2 => !(melem f2 (akeys pe.1)))
        if missing.isEmpty then
          (if skip1 then { st3 with dynamic := sadd st3.dynamic job } else st3,
            .ok ())
        else
          let causes := missing.filterMap (fun f2 => aget pe.2 f2)
          let noproducer := missing.filter (fun f2 => !(melem f2 (akeys pe.2)))
          (delete_job f st3 job false,
            .error (.missingInput job.rule noproducer causes))

/-- The per-input-file loop of `DAG.update_`: resolve each file's candidate
list through `update`, accumulating the producer dict and the per-file
buffered exceptions; any non-bufferable exception aborts immediately.  When
`update` legitimately returns no producer (impossible for the non-empty
candidate lists this loop receives) the `none` is kept in the accumulator and
contributes no edge. -/
def updateDeps (fuel : Nat) (w : World) (st : DAGState)
    (potential : List (FileId × List Job)) (job : Job) (visited : List Job)
    (skip1 : Bool) (prodAcc : List (FileId × Option Job))
    (excAcc : List (FileId × Exn)) :
    DAGState × Except Exn (List (FileId × Option Job) × List (FileId × Exn)) :=
  match potential with
  | [] => (st, .ok (prodAcc, excAcc))
  | (f2, js) :: rest =>
    match update fuel w st js (some f2) visited
        (skip1 || melem f2 job.dynamicInput) with
    | (st1, .ok p) =>
      updateDeps fuel w st1 rest job visited skip1 (prodAcc ++ [(f2, p)]) excAcc
    | (st1, .error e) =>
      if e.bufferable then
        updateDeps fuel w st1 rest job visited skip1 prodAcc (excAcc ++ [(f2, e)])
      else (st1, .error e)

end

/-- Embeds `DAG.replace_rule`: drop the old rule (ignoring a `KeyError`), add
the new one, and mirror force status. -/
def replace_rule (st : DAGState) (rule newrule : Nat) : DAGState :=
  let st1 := { st with rules := sadd (sdel st.rules rule) newrule }
  if melem rule st1.forcerules then
    { st1 with forcerules := sadd st1.forcerules newrule }
  else st1

/-- Embeds `DAG.replace_job`: remember the consumers, transfer finished
status, delete the old job recursively, re-resolve the new job through
`update`, re-attach the remembered consumers except those with dynamic input,
and transfer target-job membership. -/
def replace_job (fuel : Nat) (w : World) (st : DAGState) (job newjob : Job) :
    DAGState × Except Exn Unit :=
  let depending := rowOf st.depending job
  let st1 :=
    if melem job st.finished then { st with finished := sadd st.finished newjob }
    else st
  let st2 := delete_job fuel st1 job true
  match update fuel w st2 [newjob] none [] false with
  | (st3, .error e) => (st3, .error e)
  | (st3, .ok _) =>
    let st4 := depending.foldl
      (fun s jf =>
        if jf.1.dynamicInput.isEmpty then addEdgeFiles s jf.1 newjob jf.2
        else s) st3
    if melem job st4.targetjobs then
      ({ st4 with targetjobs := sadd (sdel st4.targetjobs job) newjob }, .ok ())
    else (st4, .ok ())

/-- Embeds `DAG.update_dynamic`: with empty `dynamic_wildcards` return
without changes; otherwise collect the unfinished downstream jobs, concretise
the rule through `dynamic_branch`, replace the rule and the job, rewrite each
downstream job with dynamic input whose rule offers a concretised branch, and
return the new job. -/
def update_dynamic (fuel : Nat) (w : World) (st : DAGState) (job : Job) :
    DAGState × Except Exn (Option Job) :=
  if job.dynamicWildcards.isEmpty then (st, .ok none)
  else
    let wc := job.dynamicWildcards
    let depending := (bfs fuel st.depending [job] (fun _ => false)).filter
      (fun j => !(melem j st.finished))
    let nb := w.dynBranchOut job.rule wc
    let st1 := replace_rule st job.rule nb.1
    let newjob := w.jobFromWildcards nb.1 nb.2
    match replace_job fuel w st1 job newjob with
    | (st2, .error e) => (st2, .error e)
    | (st2, .ok _) =>
      let final := depending.foldl
        (fun acc jobD =>
          match acc with
          | (s, Except.error e) => (s, Except.error e)
          | (s, Except.ok _) =>
            if !jobD.dynamicInput.isEmpty then
              match w.dynBranchIn jobD.rule wc with
              | some newruleD =>
                let s1 := replace_rule s jobD.rule newruleD
                if !(melem jobD s1.dynamic) then
                  replace_job fuel w s1 jobD (w.jobFromTarget newruleD jobD.target)
                else (s1, Except.ok ())
              | none => (s, Except.ok ())
            else (s, Except.ok ()))
        ((st2, Except.ok ()) : DAGState × Except Exn Unit)
      match final with
      | (s, .error e) => (s, .error e)
      | (s, .ok _) => (s, .ok (some newjob))

/-- The reason of a job (`self._reason[job]`, a `defaultdict(Reason)`). -/
def getReason (st : DAGState) (job : Job) : Reason :=
  agetD st.reason job {}

/-- Store a job's reason. -/
def setReason (st : DAGState) (job : Job) (r : Reason) : DAGState :=
  { st with reason := aset st.reason job r }

/-- Embeds the local `output_mintime` helper of `DAG.update_needrun`: the
first truthy `output_mintime` along a consumer-direction BFS from the job
(Python's `if t:` also skips a zero mtime). -/
def output_mintime (fuel : Nat) (w : World) (st : DAGState) (job : Job) :
    Option Nat :=
  (bfs fuel st.depending [job] (fun _ => false)).findSome?
    (fun j =>
      match jobOutputMintime w j with
      | some t => if t = 0 then none else some t
      | none => none)

/-- Embeds the local `needrun` seeding function of `DAG.update_needrun`,
which mutates the job's `Reason`: force flags first ( `(job not in omitforce
and job.rule in forcerules) or forcefiles ∩ output ≠ ∅`, with Python's
`and`/`or` precedence), then target-job analysis, then the updated-input check
when the reason is still empty. -/
def needrunSeed (fuel : Nat) (w : World) (st : DAGState) (job : Job) :
    DAGState :=
  let r0 := getReason st job
  let r1 :=
    if (!(melem job st.omitforce) && melem job.rule st.forcerules)
        || !(disjointL st.forcefiles job.output) then
      { r0 with forced := true }
    else if melem job st.targetjobs then
      if job.output.isEmpty then
        if !job.input.isEmpty then
          let upd := job.input.filter (fun f => !(wExists w f))
          { r0 with updatedInputRun := sunion r0.updatedInputRun upd }
        else { r0 with noio := true }
      else
        let missingOut :=
          if melem job.rule st.targetrules then jobMissingOutput w job none
          else
            let req := sunion
              ((rowOf st.depending job).foldl (fun a v => sunion a v.2) [])
              st.targetfiles
            jobMissingOutput w job (some req)
        { r0 with missingOutput := sunion r0.missingOutput missingOut }
    else r0
  let r2 :=
    if !r1.nonempty then
      match output_mintime fuel w st job with
      | some t =>
        let upd := job.input.filter (fun f => wExists w f && wIsNewer w f t)
        { r1 with updatedInput := sunion r1.updatedInput upd }
      | none => r1
    else r1
  setReason st job r2

/-- Embeds the propagation loop of `DAG.update_needrun`: pop a job, add it to
`needrun`, push missing/incomplete output reasons to its producers and
updated-input reasons to its consumers, enqueueing each affected job once. -/
def needrunPropagate (fuel : Nat) (w : World) (st : DAGState)
    (queue visited : List Job) : DAGState :=
  match fuel with
  | 0 => st
  | f + 1 =>
    match queue with
    | [] => st
    | job :: rest =>
      let st1 := { st with needrun := sadd st.needrun job }
      let step1 := (rowOf st1.dependencies job).foldl
        (fun acc pf =>
          let mo := jobMissingOutput w pf.1 (some pf.2)
          let inc := if w.incomplete pf.1 then pf.1.output else []
          let r := getReason acc.1 pf.1
          let s1 := setReason acc.1 pf.1
            { r with
              missingOutput := sunion r.missingOutput mo,
              incompleteOutput := sunion r.incompleteOutput inc }
          if (!mo.isEmpty || !inc.isEmpty) && !(melem pf.1 acc.2.2) then
            (s1, (acc.2.1 ++ [pf.1], sadd acc.2.2 pf.1))
          else (s1, acc.2))
        (st1, (rest, visited))
      let step2 := (rowOf step1.1.depending job).foldl
        (fun acc jf =>
          let r := getReason acc.1 jf.1
          let s1 := setReason acc.1 jf.1
            { r with updatedInputRun := sunion r.updatedInputRun jf.2 }
          if !(melem jf.1 acc.2.2) then
            (s1, (acc.2.1 ++ [jf.1], sadd acc.2.2 jf.1))
          else (s1, acc.2))
        step1
      needrunPropagate f w step2.1 step2.2.1 step2.2.2

/-- Embeds `DAG.update_needrun`: seed a reason for every job, queue the jobs
whose reason is non-empty, propagate, and cache `_len`. -/
def update_needrun (fuel : Nat) (w : World) (st : DAGState) : DAGState :=
  let js := jobsList fuel st
  let st1 := js.foldl (fun s j => needrunSeed fuel w s j) st
  let queue := js.filter (fun j => (getReason st1 j).nonempty)
  let st2 := needrunPropagate fuel w st1 queue queue
  { st2 with len := (st2.needrun.length : Int) }

/-- Embeds `DAG.noneedrun_finished`. -/
def noneedrun_finished (st : DAGState) (job : Job) : Bool :=
  !(melem job st.needrun) || melem job st.finished

/-- Embeds the `DAG.needrun_jobs` property. -/
def needrun_jobs (fuel : Nat) (st : DAGState) : List Job :=
  (bfs fuel st.dependencies st.targetjobs (fun j => melem j st.finished)).filter
    (fun j => melem j st.needrun)

/-- Embeds `DAG.update_priority`: raise to highest priority every job
reachable upstream from a prioritised needrun job, stopping at satisfied
jobs. -/
def update_priority (fuel : Nat) (st : DAGState) : DAGState :=
  let prioritized := fun (job : Job) =>
    melem job.rule st.priorityrules || !(disjointL st.priorityfiles job.output)
  let roots := (needrun_jobs fuel st).filter prioritized
  let marked := bfs fuel st.dependencies roots (noneedrun_finished st)
  { st with highestPriority := marked.foldl sadd st.highestPriority }

/-- Embeds `DAG.postprocess`. -/
def postprocess (fuel : Nat) (w : World) (st : DAGState) : DAGState :=
  update_ready fuel (update_priority fuel (update_needrun fuel w st))

/-- Embeds `DAG.finish`: mark finished, remove from the ready set (Python's
`set.remove` raises `KeyError` when absent), promote newly eligible
consumers, and when the job has dynamic output run the dynamic re-expander,
registering the returned new job and re-running `postprocess`. -/
def finish (fuel : Nat) (w : World) (st : DAGState) (job : Job)
    (updateDynamicFlag : Bool) : DAGState × Except Exn (Option Job) :=
  let st1 := { st with finished := sadd st.finished job }
  if !(melem job st1.readyJobs) then (st1, .error .keyError)
  else
    let st2 := { st1 with readyJobs := sdel st1.readyJobs job }
    let st3 := (rowOf st2.depending job).foldl
      (fun s jf =>
        if jobReady s jf.1 then { s with readyJobs := sadd s.readyJobs jf.1 }
        else s) st2
    if updateDynamicFlag && !job.dynamicOutput.isEmpty then
      match update_dynamic fuel w st3 job with
      | (st4, .error e) => (st4, .error e)
      | (st4, .ok none) => (st4, .ok none)
      | (st4, .ok (some newjob)) =>
        let st5 := { st4 with
          omitforce := sadd st4.omitforce newjob,
          needrun := sadd st4.needrun newjob,
          finished := sadd st4.finished newjob }
        (postprocess fuel w st5, .ok (some newjob))
    else (st3, .ok none)

/-- Embeds the hue computation opening `DAG.dot` (lines 506-510):
`huefactor = 2 / (3 * (len(self.rules) - 1))` followed by the per-rule colour
table; with exactly one rule the divisor is zero and Python raises
`ZeroDivisionError`, modelled as `none`.  Python's `len(...) - 1` is integer
arithmetic and `/` is exact here, modelled over `Int` and `Rat`. -/
def dot_rulecolor (st : DAGState) : Option (List (Nat × Rat)) :=
  let n : Int := st.rules.length
  if 3 * (n - 1) = 0 then none
  else
    let huefactor : Rat := 2 / (3 * ((n : Rat) - 1))
    some (st.rules.enum.map (fun ir => (ir.2, (ir.1 : Rat) * huefactor)))

/-! ### Example fixtures used by witnesses and counterexamples -/

/-- A job with the given rule, inputs, outputs and rank and no dynamic
features. -/
def plainJob (rule : Nat) (input output : List FileId) (rank : Nat) : Job :=
  { rule := rule, target := none, input := input, output := output,
    tempOutput := [], dynamicInput := [], dynamicOutput := [],
    dynamicWildcards := [], rank := rank }

/-- An empty DAG state with the given ambiguity flag and rule set. -/
def emptySt (ignore : Bool) (rules : List Nat) : DAGState :=
  { dependencies := [], depending := [], needrun := [], reason := [],
    finished := [], dynamic := [], len := 0, rules := rules,
    ignoreAmbiguity := ignore, targetfiles := [], targetrules := [],
    priorityfiles := [], priorityrules := [], targetjobs := [],
    readyJobs := [], forcerules := [], forcefiles := [], omitforce := [],
    highestPriority := [] }

/-- A world on which no file exists, no rule produces anything, and the
collaborator constructors return fixed jobs. -/
def w0 : World :=
  { mtime := fun _ => none, isProducer := fun _ _ => false,
    jobForTarget := fun r f => plainJob r [] [f] 0,
    dynBranchOut := fun r wc => (r + 100, wc),
    dynBranchIn := fun _ _ => none,
    jobFromWildcards := fun r _ => plainJob r [] [] 0,
    jobFromTarget := fun r _ => plainJob r [] [] 0,
    incomplete := fun _ => false }

/-- Candidate with a missing, unproducible input (its expansion fails with
`MissingInputException`), preferred over `exJobB`. -/
def exJobA : Job := plainJob 1 [5] [10] 2

/-- Candidate with no inputs (its expansion succeeds), less preferred than
`exJobA`. -/
def exJobB : Job := plainJob 2 [] [10] 1

/-- A second inputless candidate, more preferred than `exJobB`. -/
def exJobC : Job := plainJob 3 [] [10] 2

/-- An inputless job used for ready-set and consumer fixtures. -/
def exJobS : Job := plainJob 9 [] [] 0

/-- Two consumer jobs for the `requested_files` fixture. -/
def exJobT : Job := plainJob 8 [] [] 0

/-! ### Basic lemmas about the Python-set and dict helpers -/

theorem melem_iff {α : Type} [DecidableEq α] {x : α} {l : List α} :
    melem x l = true ↔ x ∈ l := by
  induction l with
  | nil => simp [melem]
  | cons y t ih =>
    by_cases h : y = x
    · simp [melem, h]
    · simp only [melem, if_neg h, ih, List.mem_cons]
      exact ⟨fun hx => Or.inr hx, fun hx => hx.resolve_left fun hx1 => h hx1.symm⟩

theorem melem_false_iff {α : Type} [DecidableEq α] {x : α} {l : List α} :
    melem x l = false ↔ x ∉ l := by
  rw [← melem_iff]
  cases melem x l <;> simp

theorem mem_sadd {α : Type} [DecidableEq α] {x y : α} {s : List α} :
    x ∈ sadd s y ↔ x ∈ s ∨ x = y := by
  unfold sadd
  by_cases h : melem y s = true
  · rw [if_pos h]
    exact ⟨Or.inl, fun hx => hx.elim id (fun he => he ▸ melem_iff.mp h)⟩
  · rw [if_neg h]
    simp

theorem mem_sunion {α : Type} [DecidableEq α] {x : α} {s t : List α} :
    x ∈ sunion s t ↔ x ∈ s ∨ x ∈ t := by
  unfold sunion
  induction t generalizing s with
  | nil => simp
  | cons y r ih =>
    simp only [List.foldl_cons, ih, mem_sadd, List.mem_cons]
    tauto

theorem mem_sdel {α : Type} [DecidableEq α] {x y : α} {s : List α} :
    x ∈ sdel s y ↔ x ∈ s ∧ x ≠ y := by
  unfold sdel
  simp [List.mem_filter]

theorem aget_aset {α β : Type} [DecidableEq α] (m : List (α × β)) (k k' : α)
    (v : β) : aget (aset m k v) k' = if k = k' then some v else aget m k' := by
  induction m with
  | nil =>
    by_cases h : k = k' <;> simp [aset, aget, h]
  | cons p t ih =>
    rcases p with ⟨a, b⟩
    by_cases h1 : a = k
    · subst h1
      by_cases h2 : a = k'
      · subst h2
        simp [aset, aget]
      · simp [aset, aget, h2]
    · by_cases h2 : a = k'
      · subst h2
        have hk : ¬ k = a := fun he => h1 he.symm
        simp [aset, aget, h1, hk]
      · simp [aset, aget, h1, h2, ih]

theorem aget_aerase {α β : Type} [DecidableEq α] (m : List (α × β)) (k k' : α) :
    aget (aerase m k) k' = if k = k' then none else aget m k' := by
  induction m with
  | nil => by_cases h : k = k' <;> simp [aerase, aget, h]
  | cons p t ih =>
    rcases p with ⟨a, b⟩
    by_cases h1 : a = k
    · subst h1
      by_cases h2 : a = k'
      · subst h2
        simp [aerase, aget, ih]
      · simp [aerase, aget, h2, ih]
    · by_cases h2 : a = k'
      · subst h2
        have hk : ¬ k = a := fun he => h1 he.symm
        simp [aerase, aget, h1, hk]
      · simp [aerase, aget, h1, h2, ih]

/-! ### Lemmas about the resolver's control flow -/

theorem updateEpilogue_fst (st : DAGState) (producer : Option Job)
    (exc : List Exn) (cyc : List Job) (file : Option FileId) :
    (updateEpilogue st producer exc cyc file).1 = st := by
  unfold updateEpilogue
  rcases producer with _ | p
  · rcases cyc with _ | ⟨c, cs⟩
    · rcases exc with _ | ⟨e, es⟩ <;> rfl
    · rfl
  · rfl

theorem foldl_proj {α β γ : Type} (proj : β → γ)
    (g : β → α → β) (h : ∀ s x, proj (g s x) = proj s)
    (l : List α) (init : β) :
    proj (l.foldl g init) = proj init := by
  induction l generalizing init with
  | nil => rfl
  | cons x t ih => rw [List.foldl_cons, ih, h]

theorem foldl_pred {α β : Type} (P : β → Prop) (g : β → α → β)
    (h : ∀ s x, P s → P (g s x)) (l : List α) (init : β) (hi : P init) :
    P (l.foldl g init) := by
  induction l generalizing init with
  | nil => exact hi
  | cons x t ih => exact ih (g init x) (h init x hi)

theorem deleteSets_ignore (st : DAGState) (job : Job) :
    (deleteSets st job).ignoreAmbiguity = st.ignoreAmbiguity := by
  unfold deleteSets
  dsimp only
  split <;> split <;> split <;> split <;> rfl

theorem deleteConsumerEdges_ignore (st : DAGState) (job : Job) :
    (deleteConsumerEdges st job).ignoreAmbiguity = st.ignoreAmbiguity := by
  unfold deleteConsumerEdges
  refine foldl_proj DAGState.ignoreAmbiguity _ ?_ _ st
  intro s x
  rfl

theorem delete_ignore : ∀ fuel : Nat,
    (∀ st job r,
      (delete_job fuel st job r).ignoreAmbiguity = st.ignoreAmbiguity) ∧
    (∀ st ps job r,
      (deleteProducers fuel st ps job r).ignoreAmbiguity = st.ignoreAmbiguity) := by
  intro fuel
  induction fuel with
  | zero =>
    have hd0 : ∀ st job r, delete_job 0 st job r = st := by
      intro st job r
      simp [delete_job]
    constructor
    · intro st job r
      rw [hd0]
    · intro st ps job r
      induction ps generalizing st with
      | nil => simp [deleteProducers]
      | cons pp rest ih =>
        simp only [deleteProducers]
        rw [ih]
        split
        · rw [hd0]
        · rfl
  | succ f ih =>
    have hdel : ∀ st job r,
        (delete_job (f + 1) st job r).ignoreAmbiguity = st.ignoreAmbiguity := by
      intro st job r
      simp only [delete_job]
      rw [deleteSets_ignore]
      show (deleteProducers f _ _ _ _).ignoreAmbiguity = _
      rw [ih.2]
      show (deleteConsumerEdges st job).ignoreAmbiguity = _
      exact deleteConsumerEdges_ignore st job
    refine ⟨hdel, ?_⟩
    intro st ps job r
    induction ps generalizing st with
    | nil => simp [deleteProducers]
    | cons pp rest ihp =>
      simp only [deleteProducers]
      rw [ihp]
      split
      · rw [hdel]
      · rfl

theorem resolver_ignore : ∀ fuel : Nat,
    (∀ w st job visited skip,
      ((update_ fuel w st job visited skip).1).ignoreAmbiguity
        = st.ignoreAmbiguity) ∧
    (∀ w st pending prev producer exc cyc file visited skip,
      ((updateLoop fuel w st pending prev producer exc cyc file visited
        skip).1).ignoreAmbiguity = st.ignoreAmbiguity) ∧
    (∀ w st jobs file visited skip,
      ((update fuel w st jobs file visited skip).1).ignoreAmbiguity
        = st.ignoreAmbiguity) ∧
    (∀ w st potential job visited skip pA eA,
      ((updateDeps fuel w st potential job visited skip pA eA).1).ignoreAmbiguity
        = st.ignoreAmbiguity) := by
  intro fuel
  induction fuel with
  | zero =>
    have hu : ∀ w st job visited skip,
        ((update_ 0 w st job visited skip).1).ignoreAmbiguity
          = st.ignoreAmbiguity := by
      intro w st job visited skip
      simp [update_]
    have hup : ∀ w st jobs file visited skip,
        ((update 0 w st jobs file visited skip).1).ignoreAmbiguity
          = st.ignoreAmbiguity := by
      intro w st jobs file visited skip
      simp [update]
    refine ⟨hu, ?_, hup, ?_⟩
    · intro w st pending prev producer exc cyc file visited skip
      induction pending generalizing st prev producer exc cyc with
      | nil =>
        simp only [updateLoop]
        rw [updateEpilogue_fst]
      | cons job rest ihl =>
        simp only [updateLoop]
        split
        · exact ihl st (some job) producer exc (cyc ++ [job])
        · simp [update_, Exn.bufferable]
    · intro w st potential job visited skip pA eA
      induction potential generalizing st pA eA with
      | nil => simp [updateDeps]
      | cons p rest ihd =>
        rcases p with ⟨f2, js⟩
        simp [updateDeps, update, Exn.bufferable]
  | succ f ih =>
    have hu : ∀ w st job visited skip,
        ((update_ (f + 1) w st job visited skip).1).ignoreAmbiguity
          = st.ignoreAmbiguity := by
      intro w st job visited skip
      simp only [update_]
      split
      · rfl
      · rcases hd : updateDeps f w { st with dependencies := aset st.dependencies job [] }
          (collectPotential w { st with dependencies := aset st.dependencies job [] } job)
          job (sadd visited job) (skip && job.dynamicOutput.isEmpty) [] []
          with ⟨st2, r2⟩
        have h2 : st2.ignoreAmbiguity = st.ignoreAmbiguity := by
          have h3 := ih.2.2.2 w { st with dependencies := aset st.dependencies job [] }
            (collectPotential w { st with dependencies := aset st.dependencies job [] } job)
            job (sadd visited job) (skip && job.dynamicOutput.isEmpty) [] []
          rw [hd] at h3
          exact h3
        rcases r2 with e | pe
        · exact h2
        · dsimp only
          split
          · split
            · show (List.foldl _ st2 pe.1).ignoreAmbiguity = _
              refine Eq.trans ?_ h2
              refine foldl_proj DAGState.ignoreAmbiguity _ ?_ pe.1 st2
              intro s fp
              rcases fp.2 with _ | p <;> rfl
            · show (List.foldl _ st2 pe.1).ignoreAmbiguity = _
              refine Eq.trans ?_ h2
              refine foldl_proj DAGState.ignoreAmbiguity _ ?_ pe.1 st2
              intro s fp
              rcases fp.2 with _ | p <;> rfl
          · show (delete_job f (List.foldl _ st2 pe.1) job false).ignoreAmbiguity = _
            rw [(delete_ignore f).1]
            refine Eq.trans ?_ h2
            refine foldl_proj DAGState.ignoreAmbiguity _ ?_ pe.1 st2
            intro s fp
            rcases fp.2 with _ | p <;> rfl
    have hl : ∀ w st pending prev producer exc cyc file visited skip,
        ((updateLoop (f + 1) w st pending prev producer exc cyc file visited
          skip).1).ignoreAmbiguity = st.ignoreAmbiguity := by
      intro w st pending prev producer exc cyc file visited skip
      induction pending generalizing st prev producer exc cyc with
      | nil =>
        simp only [updateLoop]
        rw [updateEpilogue_fst]
      | cons job rest ihl =>
        simp only [updateLoop]
        split
        · exact ihl st (some job) producer exc (cyc ++ [job])
        · rcases hu1 : update_ (f + 1) w st job visited skip with ⟨st1, r1⟩
          have h1 : st1.ignoreAmbiguity = st.ignoreAmbiguity := by
            have h4 := hu w st job visited skip
            rw [hu1] at h4
            exact h4
          rcases r1 with e | u
          · dsimp only
            split
            · rw [ihl st1 (some job) producer (exc ++ [e]) cyc]
              exact h1
            · exact h1
          · rcases prev with _ | p
            · dsimp only
              rw [ihl st1 (some job) (some job) exc cyc]
              exact h1
            · dsimp only
              split
              · rw [updateEpilogue_fst]
                exact h1
              · rcases producer with _ | q
                · dsimp only
                  rw [ihl st1 (some job) (some job) exc cyc]
                  exact h1
                · dsimp only
                  exact h1
    have hup : ∀ w st jobs file visited skip,
        ((update (f + 1) w st jobs file visited skip).1).ignoreAmbiguity
          = st.ignoreAmbiguity := by
      intro w st jobs file visited skip
      simp only [update]
      exact ih.2.1 w st (sortCandidates st.ignoreAmbiguity jobs) none none [] []
        file visited skip
    refine ⟨hu, hl, hup, ?_⟩
    intro w st potential job visited skip pA eA
    induction potential generalizing st pA eA with
    | nil => simp [updateDeps]
    | cons p rest ihd =>
      rcases p with ⟨f2, js⟩
      simp only [updateDeps]
      rcases hr : update (f + 1) w st js (some f2) visited
        (skip || melem f2 job.dynamicInput) with ⟨st1, r1⟩
      have h1 : st1.ignoreAmbiguity = st.ignoreAmbiguity := by
        have h4 := hup w st js (some f2) visited (skip || melem f2 job.dynamicInput)
        rw [hr] at h4
        exact h4
      rcases r1 with e | q
      · dsimp only
        split
        · rw [ihd st1 pA (eA ++ [(f2, e)])]
          exact h1
        · exact h1
      · dsimp only
        rw [ihd st1 (pA ++ [(f2, q)]) eA]
        exact h1

/-! ### Lemmas about the candidate sort -/

theorem mem_pyInsert {lt : Job → Job → Bool} {x y : Job} {l : List Job} :
    y ∈ pyInsert lt x l ↔ y = x ∨ y ∈ l := by
  induction l with
  | nil => simp [pyInsert]
  | cons z t ih =>
    simp only [pyInsert]
    split
    · simp only [List.mem_cons]
    · simp only [List.mem_cons, ih]
      tauto

theorem mem_pySort_aux {lt : Job → Job → Bool} {y : Job} {l acc : List Job} :
    y ∈ l.foldl (fun a x => pyInsert lt x a) acc ↔ y ∈ acc ∨ y ∈ l := by
  induction l generalizing acc with
  | nil => simp
  | cons x t ih =>
    simp only [List.foldl_cons, ih, mem_pyInsert, List.mem_cons]
    tauto

theorem mem_pySort {lt : Job → Job → Bool} {y : Job} {l : List Job} :
    y ∈ pySort lt l ↔ y ∈ l := by
  unfold pySort
  rw [mem_pySort_aux]
  simp

theorem pairwise_pyInsert_asc (x : Job) (l : List Job)
    (h : l.Pairwise (fun a b => a.rank ≤ b.rank)) :
    (pyInsert (fun a b => a.rank < b.rank) x l).Pairwise
      (fun a b => a.rank ≤ b.rank) := by
  induction l with
  | nil => simp [pyInsert]
  | cons z t ih =>
    rw [List.pairwise_cons] at h
    simp only [pyInsert]
    split
    · rename_i hc
      have hlt : x.rank < z.rank := by simpa using hc
      rw [List.pairwise_cons, List.pairwise_cons]
      refine ⟨?_, h.1, h.2⟩
      intro b hb
      rcases List.mem_cons.mp hb with rfl | hbt
      · exact Nat.le_of_lt hlt
      · exact Nat.le_trans (Nat.le_of_lt hlt) (h.1 b hbt)
    · rename_i hc
      have hge : z.rank ≤ x.rank := by
        have := Bool.not_eq_true _ ▸ hc
        simpa [Nat.not_lt] using hc
      rw [List.pairwise_cons]
      refine ⟨?_, ih h.2⟩
      intro b hb
      rcases mem_pyInsert.mp hb with rfl | hbt
      · exact hge
      · exact h.1 b hbt

theorem pairwise_pySort_asc (l : List Job) :
    (pySort (fun a b => a.rank < b.rank) l).Pairwise
      (fun a b => a.rank ≤ b.rank) := by
  unfold pySort
  have haux : ∀ acc : List Job, acc.Pairwise (fun a b => a.rank ≤ b.rank) →
      (l.foldl (fun a x => pyInsert (fun a b => a.rank < b.rank) x a)
        acc).Pairwise (fun a b => a.rank ≤ b.rank) := by
    induction l with
    | nil => intro acc hacc; exact hacc
    | cons x t ih =>
      intro acc hacc
      exact ih _ (pairwise_pyInsert_asc x acc hacc)
  exact haux [] (by simp)

/-! ### The ambiguity-suppression lemma -/

theorem bufferable_noAmb (e : Exn) (h : e.bufferable = true) :
    e.isAmbErr = false := by
  cases e <;> simp [Exn.bufferable, Exn.isAmbErr] at h ⊢

theorem updateEpilogue_noAmb (st : DAGState) (producer : Option Job)
    (exc : List Exn) (cyc : List Job) (file : Option FileId) (e : Exn)
    (hexc : ∀ x ∈ exc, x.isAmbErr = false)
    (h : (updateEpilogue st producer exc cyc file).2 = .error e) :
    e.isAmbErr = false := by
  unfold updateEpilogue at h
  rcases producer with _ | p
  · rcases cyc with _ | ⟨c, cs⟩
    · rcases exc with _ | ⟨e1, es⟩
      · simp at h
      · simp only at h
        rw [Except.error.injEq] at h
        exact h ▸ hexc e1 (List.mem_cons_self e1 es)
    · simp only at h
      rw [Except.error.injEq] at h
      rw [← h]
      rfl
  · simp at h

theorem resolver_noAmb : ∀ fuel : Nat,
    (∀ w st job visited skip e,
      st.ignoreAmbiguity = true →
      (update_ fuel w st job visited skip).2 = .error e → e.isAmbErr = false) ∧
    (∀ w st pending prev producer exc cyc file visited skip e,
      st.ignoreAmbiguity = true →
      (∀ x ∈ exc, x.isAmbErr = false) →
      (updateLoop fuel w st pending prev producer exc cyc file visited skip).2
        = .error e → e.isAmbErr = false) ∧
    (∀ w st jobs file visited skip e,
      st.ignoreAmbiguity = true →
      (update fuel w st jobs file visited skip).2 = .error e →
      e.isAmbErr = false) ∧
    (∀ w st potential job visited skip pA eA e,
      st.ignoreAmbiguity = true →
      (updateDeps fuel w st potential job visited skip pA eA).2 = .error e →
      e.isAmbErr = false) := by
  intro fuel
  induction fuel with
  | zero =>
    have hu : ∀ (w : World) (st : DAGState) job visited skip (e : Exn),
        st.ignoreAmbiguity = true →
        (update_ 0 w st job visited skip).2 = .error e → e.isAmbErr = false := by
      intro w st job visited skip e _ h
      simp only [update_] at h
      rw [Except.error.injEq] at h
      rw [← h]
      rfl
    have hup : ∀ (w : World) (st : DAGState) jobs file visited skip (e : Exn),
        st.ignoreAmbiguity = true →
        (update 0 w st jobs file visited skip).2 = .error e →
        e.isAmbErr = false := by
      intro w st jobs file visited skip e _ h
      simp only [update] at h
      rw [Except.error.injEq] at h
      rw [← h]
      rfl
    refine ⟨hu, ?_, hup, ?_⟩
    · intro w st pending prev producer exc cyc file visited skip e hig hexc h
      induction pending generalizing st prev producer exc cyc with
      | nil =>
        simp only [updateLoop] at h
        exact updateEpilogue_noAmb st producer exc cyc file e hexc h
      | cons job rest ihl =>
        simp only [updateLoop] at h
        split at h
        · exact ihl st (some job) producer exc (cyc ++ [job]) hig hexc h
        · simp only [update_, Exn.bufferable] at h
          rw [if_neg Bool.false_ne_true] at h
          dsimp only at h
          rw [Except.error.injEq] at h
          rw [← h]
          rfl
    · intro w st potential job visited skip pA eA e hig h
      induction potential generalizing st pA eA with
      | nil => simp [updateDeps] at h
      | cons p rest ihd =>
        rcases p with ⟨f2, js⟩
        simp only [updateDeps, update, Exn.bufferable] at h
        rw [if_neg Bool.false_ne_true] at h
        dsimp only at h
        rw [Except.error.injEq] at h
        rw [← h]
        rfl
  | succ f ih =>
    have hu : ∀ (w : World) (st : DAGState) job visited skip (e : Exn),
        st.ignoreAmbiguity = true →
        (update_ (f + 1) w st job visited skip).2 = .error e →
        e.isAmbErr = false := by
      intro w st job visited skip e hig h
      simp only [update_] at h
      split at h
      · simp at h
      · rcases hd : updateDeps f w
          { st with dependencies := aset st.dependencies job [] }
          (collectPotential w
            { st with dependencies := aset st.dependencies job [] } job)
          job (sadd visited job) (skip && job.dynamicOutput.isEmpty) [] []
          with ⟨st2, r2⟩
        rw [hd] at h
        rcases r2 with e2 | pe
        · dsimp only at h
          rw [Except.error.injEq] at h
          refine h ▸ ih.2.2.2 w
            { st with dependencies := aset st.dependencies job [] }
            (collectPotential w
              { st with dependencies := aset st.dependencies job [] } job)
            job (sadd visited job) (skip && job.dynamicOutput.isEmpty) [] [] e2
            hig ?_
          rw [hd]
        · dsimp only at h
          split at h
          · split at h <;> simp at h
          · rw [Except.error.injEq] at h
            rw [← h]
            rfl
    have hl : ∀ (w : World) (st : DAGState) pending prev producer exc cyc file
        visited skip (e : Exn),
        st.ignoreAmbiguity = true →
        (∀ x ∈ exc, x.isAmbErr = false) →
        (updateLoop (f + 1) w st pending prev producer exc cyc file visited
          skip).2 = .error e → e.isAmbErr = false := by
      intro w st pending prev producer exc cyc file visited skip e hig hexc h
      induction pending generalizing st prev producer exc cyc with
      | nil =>
        simp only [updateLoop] at h
        exact updateEpilogue_noAmb st producer exc cyc file e hexc h
      | cons job rest ihl =>
        simp only [updateLoop] at h
        split at h
        · exact ihl st (some job) producer exc (cyc ++ [job]) hig hexc h
        · rcases hu1 : update_ (f + 1) w st job visited skip with ⟨st1, r1⟩
          have hig1 : st1.ignoreAmbiguity = true := by
            have h4 := (resolver_ignore (f + 1)).1 w st job visited skip
            rw [hu1] at h4
            rw [h4]
            exact hig
          rw [hu1] at h
          rcases r1 with e1 | u
          · dsimp only at h
            split at h
            · rename_i hbuf
              refine ihl st1 (some job) producer (exc ++ [e1]) cyc hig1 ?_ h
              intro x hx
              rcases List.mem_append.mp hx with hx1 | hx2
              · exact hexc x hx1
              · rw [List.mem_singleton.mp hx2]
                exact bufferable_noAmb e1 hbuf
            · rw [Except.error.injEq] at h
              refine h ▸ hu w st job visited skip e1 hig ?_
              rw [hu1]
          · dsimp only at h
            rcases prev with _ | p
            · exact ihl st1 (some job) (some job) exc cyc hig1 hexc h
            · dsimp only at h
              rw [hig] at h
              simp only [Bool.or_true, if_true] at h
              exact updateEpilogue_noAmb st1 producer exc cyc file e hexc h
    have hup : ∀ (w : World) (st : DAGState) jobs file visited skip (e : Exn),
        st.ignoreAmbiguity = true →
        (update (f + 1) w st jobs file visited skip).2 = .error e →
        e.isAmbErr = false := by
      intro w st jobs file visited skip e hig h
      simp only [update] at h
      exact ih.2.1 w st (sortCandidates st.ignoreAmbiguity jobs) none none [] []
        file visited skip e hig (fun x hx => absurd hx (List.not_mem_nil x)) h
    refine ⟨hu, hl, hup, ?_⟩
    intro w st potential job visited skip pA eA e hig h
    induction potential generalizing st pA eA with
    | nil => simp [updateDeps] at h
    | cons p rest ihd =>
      rcases p with ⟨f2, js⟩
      simp only [updateDeps] at h
      rcases hr : update (f + 1) w st js (some f2) visited
        (skip || melem f2 job.dynamicInput) with ⟨st1, r1⟩
      have hig1 : st1.ignoreAmbiguity = true := by
        have h4 := (resolver_ignore (f + 1)).2.2.1 w st js (some f2) visited
          (skip || melem f2 job.dynamicInput)
        rw [hr] at h4
        rw [h4]
        exact hig
      rw [hr] at h
      rcases r1 with e1 | q
      · dsimp only at h
        split at h
        · exact ihd st1 pA (eA ++ [(f2, e1)]) hig1 h
        · rw [Except.error.injEq] at h
          refine h ▸ hup w st js (some f2) visited
            (skip || melem f2 job.dynamicInput) e1 hig ?_
          rw [hr]
      · exact ihd st1 (pA ++ [(f2, q)]) eA hig1 h

/-! ### Membership lemmas for the edge maps -/

theorem aget_mem_keys {α β : Type} [DecidableEq α] {m : List (α × β)} {k : α}
    {v : β} (h : aget m k = some v) : k ∈ m.map Prod.fst := by
  induction m with
  | nil => simp [aget] at h
  | cons p t ih =>
    rw [aget] at h
    by_cases hp : p.1 = k
    · simp [List.map_cons, List.mem_cons, hp.symm]
    · rw [if_neg hp] at h
      simp [List.map_cons, List.mem_cons, ih h]

theorem agetD_aset {α β : Type} [DecidableEq α] (m : List (α × β)) (k k' : α)
    (v d : β) : agetD (aset m k v) k' d = if k = k' then v else agetD m k' d := by
  unfold agetD
  rw [aget_aset]
  split <;> rfl

theorem agetD_aerase {α β : Type} [DecidableEq α] (m : List (α × β)) (k k' : α)
    (d : β) : agetD (aerase m k) k' d = if k = k' then d else agetD m k' d := by
  unfold agetD
  rw [aget_aerase]
  split <;> rfl

theorem filesOf_mem_keys {m : EdgeMap} {a b : Job} {f2 : FileId}
    (h : f2 ∈ filesOf m a b) : b ∈ (rowOf m a).map Prod.fst := by
  rcases hget : aget (rowOf m a) b with _ | v
  · exfalso
    have hnil : filesOf m a b = [] := by
      show agetD (rowOf m a) b [] = []
      unfold agetD
      rw [hget]
      rfl
    rw [hnil] at h
    simp at h
  · exact aget_mem_keys hget

theorem filesOf_not_key_left {m : EdgeMap} {a b : Job} {f2 : FileId}
    (h : ¬ a ∈ m.map Prod.fst) : ¬ f2 ∈ filesOf m a b := by
  intro hmem
  rcases hget : aget m a with _ | row
  · have hnil : filesOf m a b = [] := by
      show agetD (agetD m a []) b []
        = []
      unfold agetD
      rw [hget]
      rfl
    rw [hnil] at hmem
    simp at hmem
  · exact h (aget_mem_keys hget)

theorem filesOf_mapAdd {m : EdgeMap} {a b x y : Job} {f f2 : FileId} :
    f2 ∈ filesOf (mapAdd m a b f) x y ↔
      f2 ∈ filesOf m x y ∨ (x = a ∧ y = b ∧ f2 = f) := by
  show f2 ∈ agetD (agetD (mapAdd m a b f) x []) y [] ↔ _
  unfold mapAdd
  rw [agetD_aset]
  by_cases hx : a = x
  · subst hx
    rw [if_pos rfl, agetD_aset]
    by_cases hy : b = y
    · subst hy
      rw [if_pos rfl, mem_sadd]
      show f2 ∈ filesOf m a b ∨ f2 = f ↔ _
      constructor
      · rintro (h | h)
        · exact Or.inl h
        · exact Or.inr ⟨rfl, rfl, h⟩
      · rintro (h | ⟨_, _, h⟩)
        · exact Or.inl h
        · exact Or.inr h
    · rw [if_neg hy]
      show f2 ∈ filesOf m a y ↔ _
      constructor
      · exact fun h => Or.inl h
      · rintro (h | ⟨_, h2, _⟩)
        · exact h
        · exact absurd h2.symm hy
  · rw [if_neg hx]
    show f2 ∈ filesOf m x y ↔ _
    constructor
    · exact fun h => Or.inl h
    · rintro (h | ⟨h1, _, _⟩)
      · exact h
      · exact absurd h1.symm hx

theorem mapEraseInner_spec {m : EdgeMap} {p job a b : Job} {f2 : FileId} :
    f2 ∈ filesOf (aset m p (aerase (rowOf m p) job)) a b ↔
      f2 ∈ filesOf m a b ∧ ¬(a = p ∧ b = job) := by
  show f2 ∈ agetD (agetD (aset m p (aerase (rowOf m p) job)) a []) b [] ↔ _
  rw [agetD_aset]
  by_cases ha : p = a
  · subst ha
    rw [if_pos rfl, agetD_aerase]
    by_cases hb : job = b
    · subst hb
      rw [if_pos rfl]
      have hc : (p = p ∧ job = job) := ⟨rfl, rfl⟩
      simp [hc]
    · rw [if_neg hb]
      show f2 ∈ filesOf m p b ↔ _
      have hnc : ¬(p = p ∧ b = job) := fun hc => hb hc.2.symm
      exact ⟨fun h => ⟨h, hnc⟩, fun h => h.1⟩
  · rw [if_neg ha]
    show f2 ∈ filesOf m a b ↔ _
    have hnc : ¬(a = p ∧ b = job) := fun hc => ha hc.1.symm
    exact ⟨fun h => ⟨h, hnc⟩, fun h => h.1⟩

theorem mapEraseKey_spec {m : EdgeMap} {job a b : Job} {f2 : FileId} :
    f2 ∈ filesOf (aerase m job) a b ↔ f2 ∈ filesOf m a b ∧ a ≠ job := by
  show f2 ∈ agetD (agetD (aerase m job) a []) b [] ↔ _
  rw [agetD_aerase]
  by_cases ha : job = a
  · subst ha
    rw [if_pos rfl]
    simp [agetD, aget]
  · rw [if_neg ha]
    show f2 ∈ filesOf m a b ↔ _
    exact ⟨fun h => ⟨h, fun hc => ha hc.symm⟩, fun h => h.1⟩

theorem addEdgePair_symm {s : DAGState} {c p : Job} {f : FileId}
    (hsym : edgesSymmetric s) : edgesSymmetric (addEdgePair s c p f) := by
  intro a b f2
  show f2 ∈ filesOf (mapAdd s.dependencies c p f) a b ↔
    f2 ∈ filesOf (mapAdd s.depending p c f) b a
  rw [filesOf_mapAdd, filesOf_mapAdd, hsym a b f2]
  tauto

theorem addEdgeFiles_symm {s : DAGState} {c p : Job} {files : List FileId}
    (hsym : edgesSymmetric s) : edgesSymmetric (addEdgeFiles s c p files) := by
  unfold addEdgeFiles
  exact foldl_pred edgesSymmetric _ (fun s1 f h => addEdgePair_symm h) files s
    hsym

theorem deleteSets_edges (st : DAGState) (job : Job) :
    (deleteSets st job).dependencies = st.dependencies ∧
      (deleteSets st job).depending = st.depending := by
  unfold deleteSets
  dsimp only
  split <;> split <;> split <;> split <;> exact ⟨rfl, rfl⟩

theorem dceStep_spec {job : Job} {s : DAGState} {cp : Job × List FileId}
    {a b : Job} {f2 : FileId} :
    f2 ∈ filesOf (dceStep job s cp).dependencies a b ↔
      f2 ∈ filesOf s.dependencies a b ∧ ¬(a = cp.1 ∧ b = job) :=
  mapEraseInner_spec

theorem dceFold_spec (job : Job) (cs : List (Job × List FileId)) :
    ∀ (s : DAGState),
      (∀ a b f2,
        f2 ∈ filesOf (cs.foldl (dceStep job) s).dependencies a b ↔
          f2 ∈ filesOf s.dependencies a b
            ∧ ¬(b = job ∧ a ∈ cs.map Prod.fst)) ∧
      (cs.foldl (dceStep job) s).depending = s.depending := by
  induction cs with
  | nil => intro s; exact ⟨fun a b f2 => by simp, rfl⟩
  | cons cp rest ih =>
    intro s
    rw [List.foldl_cons]
    refine ⟨fun a b f2 => ?_, ((ih (dceStep job s cp)).2).trans rfl⟩
    rw [(ih (dceStep job s cp)).1 a b f2, dceStep_spec]
    simp only [List.map_cons, List.mem_cons]
    constructor
    · rintro ⟨⟨hm, h1⟩, h2⟩
      refine ⟨hm, ?_⟩
      rintro ⟨rfl, (h3 | h3)⟩
      · exact h1 ⟨h3, rfl⟩
      · exact h2 ⟨rfl, h3⟩
    · rintro ⟨hm, h1⟩
      refine ⟨⟨hm, ?_⟩, ?_⟩
      · rintro ⟨rfl, rfl⟩
        exact h1 ⟨rfl, Or.inl rfl⟩
      · rintro ⟨rfl, h3⟩
        exact h1 ⟨rfl, Or.inr h3⟩

/-! ### Symmetry preservation through job deletion -/

theorem delete_symm : ∀ fuel : Nat,
    (∀ (st : DAGState) (job : Job) (r : Bool) (bad : List Job),
      (∀ a b f2, a ∉ bad →
        (f2 ∈ filesOf st.dependencies a b ↔ f2 ∈ filesOf st.depending b a)) →
      (∀ p ∈ bad, ∀ b f2, f2 ∉ filesOf st.depending p b) →
      ((∀ a b f2, a ∉ bad →
        (f2 ∈ filesOf (delete_job fuel st job r).dependencies a b ↔
          f2 ∈ filesOf (delete_job fuel st job r).depending b a)) ∧
       (∀ a b f2, f2 ∈ filesOf (delete_job fuel st job r).dependencies a b →
          f2 ∈ filesOf st.dependencies a b) ∧
       (∀ a b f2, f2 ∈ filesOf (delete_job fuel st job r).depending a b →
          f2 ∈ filesOf st.depending a b))) ∧
    (∀ (st : DAGState) (ps : List (Job × List FileId)) (job : Job) (r : Bool)
      (bad : List Job),
      (∀ a b f2, ¬(a = job ∨ a ∈ bad) →
        (f2 ∈ filesOf st.dependencies a b ↔ f2 ∈ filesOf st.depending b a)) →
      (∀ p, (p = job ∨ p ∈ bad) → ∀ b f2, f2 ∉ filesOf st.depending p b) →
      (job ∉ bad → ∀ b f2, f2 ∈ filesOf st.depending b job →
          b ∈ ps.map Prod.fst) →
      ((∀ a b f2, ¬(a = job ∨ a ∈ bad) →
        (f2 ∈ filesOf (deleteProducers fuel st ps job r).dependencies a b ↔
          f2 ∈ filesOf (deleteProducers fuel st ps job r).depending b a)) ∧
       (∀ a b f2,
          f2 ∈ filesOf (deleteProducers fuel st ps job r).dependencies a b →
          f2 ∈ filesOf st.dependencies a b) ∧
       (∀ a b f2,
          f2 ∈ filesOf (deleteProducers fuel st ps job r).depending a b →
          f2 ∈ filesOf st.depending a b) ∧
       (job ∉ bad → ∀ b f2,
          f2 ∉ filesOf (deleteProducers fuel st ps job r).depending b job))) := by
  intro fuel
  induction fuel with
  | zero =>
    have hd0 : ∀ st job r, delete_job 0 st job r = st := by
      intro st job r
      simp [delete_job]
    constructor
    · intro st job r bad hSE hER
      rw [hd0]
      exact ⟨hSE, fun a b f2 h => h, fun a b f2 h => h⟩
    · intro st ps job r bad hSE hER hE
      induction ps generalizing st with
      | nil =>
        rw [show deleteProducers 0 st [] job r = st by simp [deleteProducers]]
        refine ⟨hSE, fun a b f2 h => h, fun a b f2 h => h, fun hj b f2 hmem => ?_⟩
        exact absurd (hE hj b f2 hmem) (List.not_mem_nil b)
      | cons pp rest ihp =>
        simp only [deleteProducers]
        rw [hd0]
        set row1 := aerase (rowOf st.depending pp.1) job with hrow1
        set s1 : DAGState := { st with depending := aset st.depending pp.1 row1 }
          with hs1
        have hR1 : ∀ a b f2, f2 ∈ filesOf s1.depending a b ↔
            f2 ∈ filesOf st.depending a b ∧ ¬(a = pp.1 ∧ b = job) :=
          fun a b f2 => mapEraseInner_spec
        have hD1 : s1.dependencies = st.dependencies := rfl
        have hSE1 : ∀ a b f2, ¬(a = job ∨ a ∈ bad) →
            (f2 ∈ filesOf s1.dependencies a b ↔
              f2 ∈ filesOf s1.depending b a) := by
          intro a b f2 ha
          rw [hD1, hR1]
          rw [hSE a b f2 ha]
          have hnc : ¬(b = pp.1 ∧ a = job) := by
            rintro ⟨_, rfl⟩
            exact ha (Or.inl rfl)
          exact ⟨fun h => ⟨h, hnc⟩, fun h => h.1⟩
        have hER1 : ∀ p, (p = job ∨ p ∈ bad) → ∀ b f2,
            f2 ∉ filesOf s1.depending p b := by
          intro p hp b f2 hmem
          exact hER p hp b f2 ((hR1 p b f2).mp hmem).1
        have hE1 : job ∉ bad → ∀ b f2,
            f2 ∈ filesOf s1.depending b job → b ∈ rest.map Prod.fst := by
          intro hj b f2 hmem
          rcases (hR1 b job f2).mp hmem with ⟨hmem0, hnc⟩
          have hb := hE hj b f2 hmem0
          rw [List.map_cons, List.mem_cons] at hb
          rcases hb with h1 | h1
          · exact absurd ⟨h1, rfl⟩ hnc
          · exact h1
        rw [ite_self]
        rcases ihp s1 hSE1 hER1 hE1 with ⟨c1, c2, c3, c4⟩
        refine ⟨?_, ?_, ?_, ?_⟩
        · intro a b f2 ha
          exact c1 a b f2 ha
        · intro a b f2 hmem
          exact c2 a b f2 hmem
        · intro a b f2 hmem
          exact ((hR1 a b f2).mp (c3 a b f2 hmem)).1
        · intro hj b f2
          exact c4 hj b f2
  | succ f ih =>
    have hdel : ∀ (st : DAGState) (job : Job) (r : Bool) (bad : List Job),
        (∀ a b f2, a ∉ bad →
          (f2 ∈ filesOf st.dependencies a b ↔ f2 ∈ filesOf st.depending b a)) →
        (∀ p ∈ bad, ∀ b f2, f2 ∉ filesOf st.depending p b) →
        ((∀ a b f2, a ∉ bad →
          (f2 ∈ filesOf (delete_job (f + 1) st job r).dependencies a b ↔
            f2 ∈ filesOf (delete_job (f + 1) st job r).depending b a)) ∧
         (∀ a b f2,
            f2 ∈ filesOf (delete_job (f + 1) st job r).dependencies a b →
            f2 ∈ filesOf st.dependencies a b) ∧
         (∀ a b f2,
            f2 ∈ filesOf (delete_job (f + 1) st job r).depending a b →
            f2 ∈ filesOf st.depending a b)) := by
      intro st job r bad hSE hER
      simp only [delete_job]
      set st1 := deleteConsumerEdges st job with hst1def
      set st2 : DAGState := { st1 with depending := aerase st1.depending job }
        with hst2def
      set st3 := deleteProducers f st2 (rowOf st2.dependencies job) job r
        with hst3def
      set st4 : DAGState := { st3 with dependencies := aerase st3.dependencies job }
        with hst4def
      have hds := deleteSets_edges st4 job
      rw [hds.1, hds.2]
      have hD1 : ∀ a b f2, f2 ∈ filesOf st1.dependencies a b ↔
          f2 ∈ filesOf st.dependencies a b
            ∧ ¬(b = job ∧ a ∈ (rowOf st.depending job).map Prod.fst) :=
        fun a b f2 => (dceFold_spec job (rowOf st.depending job) st).1 a b f2
      have hR1 : st1.depending = st.depending :=
        (dceFold_spec job (rowOf st.depending job) st).2
      have hR2 : ∀ a b f2, f2 ∈ filesOf st2.depending a b ↔
          f2 ∈ filesOf st.depending a b ∧ a ≠ job := by
        intro a b f2
        show f2 ∈ filesOf (aerase st1.depending job) a b ↔ _
        rw [mapEraseKey_spec, hR1]
      have hD2 : st2.dependencies = st1.dependencies := rfl
      have hSE2 : ∀ a b f2, ¬(a = job ∨ a ∈ bad) →
          (f2 ∈ filesOf st2.dependencies a b ↔
            f2 ∈ filesOf st2.depending b a) := by
        intro a b f2 ha
        rw [not_or] at ha
        rw [hD2, hD1 a b f2, hR2 b a f2]
        by_cases hb : b = job
        · subst hb
          constructor
          · rintro ⟨hm, hnc⟩
            exfalso
            have hr := (hSE a b f2 ha.2).mp hm
            exact hnc ⟨rfl, filesOf_mem_keys hr⟩
          · rintro ⟨_, hc⟩
            exact absurd rfl hc
        · have hnc1 : ¬(b = job ∧ a ∈ (rowOf st.depending job).map Prod.fst) :=
            fun hc => hb hc.1
          constructor
          · rintro ⟨hm, _⟩
            exact ⟨(hSE a b f2 ha.2).mp hm, hb⟩
          · rintro ⟨hm, _⟩
            exact ⟨(hSE a b f2 ha.2).mpr hm, hnc1⟩
      have hER2 : ∀ p, (p = job ∨ p ∈ bad) → ∀ b f2,
          f2 ∉ filesOf st2.depending p b := by
        rintro p (rfl | hp) b f2 hmem
        · exact absurd rfl ((hR2 p b f2).mp hmem).2
        · exact hER p hp b f2 ((hR2 p b f2).mp hmem).1
      have hE2 : job ∉ bad → ∀ b f2, f2 ∈ filesOf st2.depending b job →
          b ∈ (rowOf st2.dependencies job).map Prod.fst := by
        intro hj b f2 hmem
        rcases (hR2 b job f2).mp hmem with ⟨hm, hbne⟩
        have hd := (hSE job b f2 hj).mpr hm
        have hd1 : f2 ∈ filesOf st2.dependencies job b := by
          rw [hD2, hD1 job b f2]
          exact ⟨hd, fun hc => hbne hc.1⟩
        exact filesOf_mem_keys hd1
      rcases ih.2 st2 (rowOf st2.dependencies job) job r bad hSE2 hER2 hE2
        with ⟨l1, l2, l3, l4⟩
      have hD4 : ∀ a b f2, f2 ∈ filesOf st4.dependencies a b ↔
          f2 ∈ filesOf st3.dependencies a b ∧ a ≠ job := by
        intro a b f2
        show f2 ∈ filesOf (aerase st3.dependencies job) a b ↔ _
        rw [mapEraseKey_spec]
      have hR4 : st4.depending = st3.depending := rfl
      refine ⟨?_, ?_, ?_⟩
      · intro a b f2 ha
        by_cases haj : a = job
        · subst haj
          rw [hD4 a b f2, hR4]
          constructor
          · rintro ⟨_, hc⟩
            exact absurd rfl hc
          · intro hm
            exact absurd hm (l4 ha b f2)
        · rw [hD4 a b f2, hR4]
          constructor
          · rintro ⟨hm, _⟩
            exact (l1 a b f2 (by rw [not_or]; exact ⟨haj, ha⟩)).mp hm
          · intro hm
            exact ⟨(l1 a b f2 (by rw [not_or]; exact ⟨haj, ha⟩)).mpr hm, haj⟩
      · intro a b f2 hmem
        have h3 := ((hD4 a b f2).mp hmem).1
        have h2 := l2 a b f2 h3
        rw [hD2] at h2
        exact ((hD1 a b f2).mp h2).1
      · intro a b f2 hmem
        rw [hR4] at hmem
        exact ((hR2 a b f2).mp (l3 a b f2 hmem)).1
    refine ⟨hdel, ?_⟩
    intro st ps job r bad hSE hER hE
    induction ps generalizing st with
    | nil =>
      rw [show deleteProducers (f + 1) st [] job r = st by simp [deleteProducers]]
      refine ⟨hSE, fun a b f2 h => h, fun a b f2 h => h, fun hj b f2 hmem => ?_⟩
      exact absurd (hE hj b f2 hmem) (List.not_mem_nil b)
    | cons pp rest ihp =>
      simp only [deleteProducers]
      set row1 := aerase (rowOf st.depending pp.1) job with hrow1
      set s1 : DAGState := { st with depending := aset st.depending pp.1 row1 }
        with hs1
      have hR1 : ∀ a b f2, f2 ∈ filesOf s1.depending a b ↔
          f2 ∈ filesOf st.depending a b ∧ ¬(a = pp.1 ∧ b = job) :=
        fun a b f2 => mapEraseInner_spec
      have hD1 : s1.dependencies = st.dependencies := rfl
      have hSE1 : ∀ a b f2, ¬(a = job ∨ a ∈ bad) →
          (f2 ∈ filesOf s1.dependencies a b ↔ f2 ∈ filesOf s1.depending b a) := by
        intro a b f2 ha
        rw [hD1, hR1 b a f2]
        rw [hSE a b f2 ha]
        have hnc : ¬(b = pp.1 ∧ a = job) := by
          rintro ⟨_, rfl⟩
          exact ha (Or.inl rfl)
        exact ⟨fun h => ⟨h, hnc⟩, fun h => h.1⟩
      have hER1 : ∀ p, (p = job ∨ p ∈ bad) → ∀ b f2,
          f2 ∉ filesOf s1.depending p b := by
        intro p hp b f2 hmem
        exact hER p hp b f2 ((hR1 p b f2).mp hmem).1
      have hE1 : job ∉ bad → ∀ b f2,
          f2 ∈ filesOf s1.depending b job → b ∈ rest.map Prod.fst := by
        intro hj b f2 hmem
        rcases (hR1 b job f2).mp hmem with ⟨hmem0, hnc⟩
        have hb := hE hj b f2 hmem0
        rw [List.map_cons, List.mem_cons] at hb
        rcases hb with h1 | h1
        · exact absurd ⟨h1, rfl⟩ hnc
        · exact h1
      by_cases hcond : (row1.isEmpty && r) = true
      · rw [if_pos hcond]
        have hbad1 : ∀ a b f2, a ∉ job :: bad →
            (f2 ∈ filesOf s1.dependencies a b ↔
              f2 ∈ filesOf s1.depending b a) := by
          intro a b f2 ha
          rw [List.mem_cons] at ha
          exact hSE1 a b f2 ha
        have hbad2 : ∀ p ∈ job :: bad, ∀ b f2,
            f2 ∉ filesOf s1.depending p b := by
          intro p hp b f2
          rw [List.mem_cons] at hp
          exact hER1 p hp b f2
        rcases hdel s1 pp.1 true (job :: bad) hbad1 hbad2 with ⟨d1, d2, d3⟩
        set s2 := delete_job (f + 1) s1 pp.1 true with hs2
        have hSE3 : ∀ a b f2, ¬(a = job ∨ a ∈ bad) →
            (f2 ∈ filesOf s2.dependencies a b ↔
              f2 ∈ filesOf s2.depending b a) := by
          intro a b f2 ha
          refine d1 a b f2 ?_
          rw [List.mem_cons]
          exact ha
        have hER3 : ∀ p, (p = job ∨ p ∈ bad) → ∀ b f2,
            f2 ∉ filesOf s2.depending p b := by
          intro p hp b f2 hmem
          exact hER1 p hp b f2 (d3 p b f2 hmem)
        have hE3 : job ∉ bad → ∀ b f2,
            f2 ∈ filesOf s2.depending b job → b ∈ rest.map Prod.fst := by
          intro hj b f2 hmem
          exact hE1 hj b f2 (d3 b job f2 hmem)
        rcases ihp s2 hSE3 hER3 hE3 with ⟨c1, c2, c3, c4⟩
        refine ⟨c1, ?_, ?_, c4⟩
        · intro a b f2 hmem
          exact d2 a b f2 (c2 a b f2 hmem)
        · intro a b f2 hmem
          exact ((hR1 a b f2).mp (d3 a b f2 (c3 a b f2 hmem))).1
      · rw [if_neg hcond]
        rcases ihp s1 hSE1 hER1 hE1 with ⟨c1, c2, c3, c4⟩
        refine ⟨c1, ?_, ?_, c4⟩
        · intro a b f2 hmem
          exact c2 a b f2 hmem
        · intro a b f2 hmem
          exact ((hR1 a b f2).mp (c3 a b f2 hmem)).1

theorem delete_job_symm (fuel : Nat) (st : DAGState) (job : Job) (r : Bool)
    (h : edgesSymmetric st) : edgesSymmetric (delete_job fuel st job r) := by
  have hd := (delete_symm fuel).1 st job r []
    (fun a b f2 _ => h a b f2)
    (by intro p hp; simp at hp)
  intro a b f2
  exact hd.1 a b f2 (List.not_mem_nil a)

theorem aset_empty_symm {st : DAGState} {job : Job}
    (hmem : melem job (akeys st.dependencies) = false)
    (h : edgesSymmetric st) :
    edgesSymmetric { st with dependencies := aset st.dependencies job [] } := by
  have hkey : ¬ job ∈ st.dependencies.map Prod.fst := melem_false_iff.mp hmem
  intro a b f2
  show f2 ∈ filesOf (aset st.dependencies job []) a b ↔
    f2 ∈ filesOf st.depending b a
  have hout : f2 ∈ filesOf (aset st.dependencies job []) a b ↔
      f2 ∈ filesOf st.dependencies a b := by
    show f2 ∈ agetD (agetD (aset st.dependencies job []) a []) b [] ↔ _
    rw [agetD_aset]
    by_cases ha : job = a
    · subst ha
      rw [if_pos rfl]
      have h1 : ¬ f2 ∈ filesOf st.dependencies job b :=
        filesOf_not_key_left hkey
      simp [agetD, aget, h1]
    · rw [if_neg ha]
      exact Iff.rfl
  rw [hout]
  exact h a b f2

theorem updateDeps_fold_symm {st : DAGState} {job : Job}
    {pl : List (FileId × Option Job)} (h : edgesSymmetric st) :
    edgesSymmetric (pl.foldl
      (fun s fp =>
        match fp.2 with
        | some p => addEdgePair s job p fp.1
        | none => s) st) := by
  refine foldl_pred edgesSymmetric _ ?_ pl st h
  intro s fp hs
  rcases fp.2 with _ | p
  · exact hs
  · exact addEdgePair_symm hs

theorem resolver_symm : ∀ fuel : Nat,
    (∀ w st job visited skip, edgesSymmetric st →
      edgesSymmetric ((update_ fuel w st job visited skip).1)) ∧
    (∀ w st pending prev producer exc cyc file visited skip,
      edgesSymmetric st →
      edgesSymmetric ((updateLoop fuel w st pending prev producer exc cyc file
        visited skip).1)) ∧
    (∀ w st jobs file visited skip, edgesSymmetric st →
      edgesSymmetric ((update fuel w st jobs file visited skip).1)) ∧
    (∀ w st potential job visited skip pA eA, edgesSymmetric st →
      edgesSymmetric ((updateDeps fuel w st potential job visited skip pA
        eA).1)) := by
  intro fuel
  induction fuel with
  | zero =>
    have hu : ∀ (w : World) (st : DAGState) job visited skip,
        edgesSymmetric st →
        edgesSymmetric ((update_ 0 w st job visited skip).1) := by
      intro w st job visited skip h
      simpa [update_] using h
    have hup : ∀ (w : World) (st : DAGState) jobs file visited skip,
        edgesSymmetric st →
        edgesSymmetric ((update 0 w st jobs file visited skip).1) := by
      intro w st jobs file visited skip h
      simpa [update] using h
    refine ⟨hu, ?_, hup, ?_⟩
    · intro w st pending prev producer exc cyc file visited skip h
      induction pending generalizing st prev producer exc cyc with
      | nil =>
        simp only [updateLoop]
        rw [updateEpilogue_fst]
        exact h
      | cons job rest ihl =>
        simp only [updateLoop]
        split
        · exact ihl st (some job) producer exc (cyc ++ [job]) h
        · simp only [update_, Exn.bufferable]
          rw [if_neg Bool.false_ne_true]
          exact h
    · intro w st potential job visited skip pA eA h
      induction potential generalizing st pA eA with
      | nil => simpa [updateDeps] using h
      | cons p rest ihd =>
        rcases p with ⟨f2, js⟩
        simp only [updateDeps, update, Exn.bufferable]
        rw [if_neg Bool.false_ne_true]
        exact h
  | succ f ih =>
    have hu : ∀ (w : World) (st : DAGState) job visited skip,
        edgesSymmetric st →
        edgesSymmetric ((update_ (f + 1) w st job visited skip).1) := by
      intro w st job visited skip h
      simp only [update_]
      split
      · exact h
      · rename_i hmemo
        have h1 : edgesSymmetric
            { st with dependencies := aset st.dependencies job [] } :=
          aset_empty_symm (by simpa using hmemo) h
        rcases hd : updateDeps f w
          { st with dependencies := aset st.dependencies job [] }
          (collectPotential w
            { st with dependencies := aset st.dependencies job [] } job)
          job (sadd visited job) (skip && job.dynamicOutput.isEmpty) [] []
          with ⟨st2, r2⟩
        have h2 : edgesSymmetric st2 := by
          have h3 := ih.2.2.2 w
            { st with dependencies := aset st.dependencies job [] }
            (collectPotential w
              { st with dependencies := aset st.dependencies job [] } job)
            job (sadd visited job) (skip && job.dynamicOutput.isEmpty) [] [] h1
          rw [hd] at h3
          exact h3
        rcases r2 with e | pe
        · exact h2
        · dsimp only
          have h3 : edgesSymmetric (pe.1.foldl
              (fun s fp =>
                match fp.2 with
                | some p => addEdgePair s job p fp.1
                | none => s) st2) := updateDeps_fold_symm h2
          split
          · split
            · exact h3
            · exact h3
          · exact delete_job_symm f _ job false h3
    have hl : ∀ (w : World) (st : DAGState) pending prev producer exc cyc file
        visited skip, edgesSymmetric st →
        edgesSymmetric ((updateLoop (f + 1) w st pending prev producer exc cyc
          file visited skip).1) := by
      intro w st pending prev producer exc cyc file visited skip h
      induction pending generalizing st prev producer exc cyc with
      | nil =>
        simp only [updateLoop]
        rw [updateEpilogue_fst]
        exact h
      | cons job rest ihl =>
        simp only [updateLoop]
        split
        · exact ihl st (some job) producer exc (cyc ++ [job]) h
        · rcases hu1 : update_ (f + 1) w st job visited skip with ⟨st1, r1⟩
          have h1 : edgesSymmetric st1 := by
            have h4 := hu w st job visited skip h
            rw [hu1] at h4
            exact h4
          rcases r1 with e | u
          · dsimp only
            split
            · exact ihl st1 (some job) producer (exc ++ [e]) cyc h1
            · exact h1
          · rcases prev with _ | p
            · dsimp only
              exact ihl st1 (some job) (some job) exc cyc h1
            · dsimp only
              split
              · rw [updateEpilogue_fst]
                exact h1
              · rcases producer with _ | q
                · dsimp only
                  exact ihl st1 (some job) (some job) exc cyc h1
                · exact h1
    have hup : ∀ (w : World) (st : DAGState) jobs file visited skip,
        edgesSymmetric st →
        edgesSymmetric ((update (f + 1) w st jobs file visited skip).1) := by
      intro w st jobs file visited skip h
      simp only [update]
      exact ih.2.1 w st (sortCandidates st.ignoreAmbiguity jobs) none none [] []
        file visited skip h
    refine ⟨hu, hl, hup, ?_⟩
    intro w st potential job visited skip pA eA h
    induction potential generalizing st pA eA with
    | nil => simpa [updateDeps] using h
    | cons p rest ihd =>
      rcases p with ⟨f2, js⟩
      simp only [updateDeps]
      rcases hr : update (f + 1) w st js (some f2) visited
        (skip || melem f2 job.dynamicInput) with ⟨st1, r1⟩
      have h1 : edgesSymmetric st1 := by
        have h4 := hup w st js (some f2) visited
          (skip || melem f2 job.dynamicInput) h
        rw [hr] at h4
        exact h4
      rcases r1 with e | q
      · dsimp only
        split
        · exact ihd st1 pA (eA ++ [(f2, e)]) h1
        · exact h1
      · dsimp only
        exact ihd st1 (pA ++ [(f2, q)]) eA h1

/-! ### Edge preservation by the bookkeeping operations -/

theorem replace_rule_edges (st : DAGState) (r n : Nat) :
    (replace_rule st r n).dependencies = st.dependencies ∧
      (replace_rule st r n).depending = st.depending := by
  unfold replace_rule
  dsimp only
  split <;> exact ⟨rfl, rfl⟩

theorem replace_rule_symm {st : DAGState} {r n : Nat}
    (h : edgesSymmetric st) : edgesSymmetric (replace_rule st r n) := by
  intro a b f2
  rw [(replace_rule_edges st r n).1, (replace_rule_edges st r n).2]
  exact h a b f2

theorem replace_job_symm (fuel : Nat) (w : World) (st : DAGState)
    (job newjob : Job) (h : edgesSymmetric st) :
    edgesSymmetric ((replace_job fuel w st job newjob).1) := by
  unfold replace_job
  dsimp only
  rcases hres : update fuel w
    (delete_job fuel
      (if melem job st.finished = true then
        { st with finished := sadd st.finished newjob } else st) job true)
    [newjob] none [] false with ⟨st3, r3⟩
  have h2 : edgesSymmetric st3 := by
    have ha : edgesSymmetric (if melem job st.finished = true then
        { st with finished := sadd st.finished newjob } else st) := by
      split <;> exact h
    have hb := delete_job_symm fuel _ job true ha
    have hc := (resolver_symm fuel).2.2.1 w _ [newjob] none [] false hb
    rw [hres] at hc
    exact hc
  rcases r3 with e | u
  · exact h2
  · dsimp only
    have h4 : edgesSymmetric ((rowOf st.depending job).foldl
        (fun s jf =>
          if jf.1.dynamicInput.isEmpty then addEdgeFiles s jf.1 newjob jf.2
          else s) st3) := by
      refine foldl_pred edgesSymmetric _ ?_ _ st3 h2
      intro s x hs
      split
      · exact addEdgeFiles_symm hs
      · exact hs
    split
    · exact h4
    · exact h4

theorem update_dynamic_symm (fuel : Nat) (w : World) (st : DAGState)
    (job : Job) (h : edgesSymmetric st) :
    edgesSymmetric ((update_dynamic fuel w st job).1) := by
  unfold update_dynamic
  split
  · exact h
  · dsimp only
    have h1 : edgesSymmetric (replace_rule st job.rule
        (w.dynBranchOut job.rule job.dynamicWildcards).1) := replace_rule_symm h
    rcases hres : replace_job fuel w
      (replace_rule st job.rule (w.dynBranchOut job.rule job.dynamicWildcards).1)
      job
      (w.jobFromWildcards (w.dynBranchOut job.rule job.dynamicWildcards).1
        (w.dynBranchOut job.rule job.dynamicWildcards).2) with ⟨st2, r2⟩
    have h2 : edgesSymmetric st2 := by
      have hc := replace_job_symm fuel w _ job
        (w.jobFromWildcards (w.dynBranchOut job.rule job.dynamicWildcards).1
          (w.dynBranchOut job.rule job.dynamicWildcards).2) h1
      rw [hres] at hc
      exact hc
    rcases r2 with e | u
    · exact h2
    · dsimp only
      have h3 : ∀ (l : List Job) (acc : DAGState × Except Exn Unit),
          edgesSymmetric acc.1 →
          edgesSymmetric ((l.foldl
            (fun acc2 jobD =>
              match acc2 with
              | (s, Except.error e) => (s, Except.error e)
              | (s, Except.ok _) =>
                if !jobD.dynamicInput.isEmpty then
                  match w.dynBranchIn jobD.rule job.dynamicWildcards with
                  | some newruleD =>
                    let s1 := replace_rule s jobD.rule newruleD
                    if !(melem jobD s1.dynamic) then
                      replace_job fuel w s1 jobD
                        (w.jobFromTarget newruleD jobD.target)
                    else (s1, Except.ok ())
                  | none => (s, Except.ok ())
                else (s, Except.ok ())) acc).1) := by
        intro l
        refine fun acc hacc => foldl_pred (fun q => edgesSymmetric q.1) _ ?_ l
          acc hacc
        intro q x hq
        rcases q with ⟨s, rq⟩
        rcases rq with e | u2
        · exact hq
        · dsimp only
          split
          · rcases hbr : w.dynBranchIn x.rule job.dynamicWildcards with _ | nr
            · exact hq
            · dsimp only
              split
              · exact replace_job_symm fuel w _ x _ (replace_rule_symm hq)
              · exact replace_rule_symm hq
          · exact hq
      have h4 := h3 ((bfs fuel st.depending [job] fun _ => false).filter
        (fun j => !(melem j st.finished))) (st2, Except.ok ()) h2
      rcases hfin : ((bfs fuel st.depending [job] fun _ => false).filter
        (fun j => !(melem j st.finished))).foldl _ (st2, Except.ok ())
        with ⟨s5, r5⟩
      rw [hfin] at h4
      rcases r5 with e | u5
      · exact h4
      · exact h4

theorem needrunSeed_edges (fuel : Nat) (w : World) (st : DAGState) (job : Job) :
    (needrunSeed fuel w st job).dependencies = st.dependencies ∧
      (needrunSeed fuel w st job).depending = st.depending :=
  ⟨rfl, rfl⟩

theorem needrunPropagate_edges : ∀ (fuel : Nat) (w : World) (st : DAGState)
    (queue visited : List Job),
    (needrunPropagate fuel w st queue visited).dependencies = st.dependencies ∧
      (needrunPropagate fuel w st queue visited).depending = st.depending := by
  intro fuel
  induction fuel with
  | zero => intro w st queue visited; exact ⟨rfl, rfl⟩
  | succ f ih =>
    intro w st queue visited
    rcases queue with _ | ⟨job, rest⟩
    · exact ⟨rfl, rfl⟩
    · simp only [needrunPropagate]
      constructor
      · rw [(ih w _ _ _).1]
        exact (foldl_pred
          (fun q : DAGState × (List Job × List Job) =>
            q.1.dependencies = st.dependencies ∧
            q.1.depending = st.depending) _
          (fun s x hs => by dsimp only; split <;> exact hs) _ _
          (foldl_pred
            (fun q : DAGState × (List Job × List Job) =>
              q.1.dependencies = st.dependencies ∧
              q.1.depending = st.depending) _
            (fun s x hs => by dsimp only; split <;> split <;> exact hs) _ _
            ⟨rfl, rfl⟩)).1
      · rw [(ih w _ _ _).2]
        exact (foldl_pred
          (fun q : DAGState × (List Job × List Job) =>
            q.1.dependencies = st.dependencies ∧
            q.1.depending = st.depending) _
          (fun s x hs => by dsimp only; split <;> exact hs) _ _
          (foldl_pred
            (fun q : DAGState × (List Job × List Job) =>
              q.1.dependencies = st.dependencies ∧
              q.1.depending = st.depending) _
            (fun s x hs => by dsimp only; split <;> split <;> exact hs) _ _
            ⟨rfl, rfl⟩)).2

theorem postprocess_edges (fuel : Nat) (w : World) (st : DAGState) :
    (postprocess fuel w st).dependencies = st.dependencies ∧
      (postprocess fuel w st).depending = st.depending := by
  unfold postprocess update_ready update_priority update_needrun
  dsimp only
  constructor
  · rw [(needrunPropagate_edges fuel w _ _ _).1]
    exact foldl_proj DAGState.dependencies (fun s j => needrunSeed fuel w s j)
      (fun s j => (needrunSeed_edges fuel w s j).1) _ st
  · rw [(needrunPropagate_edges fuel w _ _ _).2]
    exact foldl_proj DAGState.depending (fun s j => needrunSeed fuel w s j)
      (fun s j => (needrunSeed_edges fuel w s j).2) _ st

theorem finish_symm (fuel : Nat) (w : World) (st : DAGState) (job : Job)
    (updDyn : Bool) (h : edgesSymmetric st) :
    edgesSymmetric ((finish fuel w st job updDyn).1) := by
  unfold finish
  dsimp only
  split
  · exact h
  · have h3 : edgesSymmetric ((rowOf ({ st with
        finished := sadd st.finished job } : DAGState).depending job).foldl
        (fun s jf =>
          if jobReady s jf.1 then { s with readyJobs := sadd s.readyJobs jf.1 }
          else s)
        { { st with finished := sadd st.finished job } with
            readyJobs := sdel ({ st with
              finished := sadd st.finished job } : DAGState).readyJobs job }) := by
      refine foldl_pred edgesSymmetric _ ?_ _ _ ?_
      · intro s x hs
        split
        · exact hs
        · exact hs
      · exact h
    split
    · rcases hres : update_dynamic fuel w _ job with ⟨st4, r4⟩
      have h4 : edgesSymmetric st4 := by
        have hc := update_dynamic_symm fuel w _ job h3
        rw [hres] at hc
        exact hc
      rcases r4 with e | nj
      · exact h4
      · rcases nj with _ | newjob
        · exact h4
        · dsimp only
          intro a b f2
          rw [(postprocess_edges fuel w _).1, (postprocess_edges fuel w _).2]
          exact h4 a b f2
    · exact h3

/-! ### Claim C5 -/

/-- C5: bidirectional consistency (`f ∈ deps[j][p] ⇔ f ∈ rdeps[p][j]`) is an
invariant of every public mutating operation: `update`, `delete_job`,
`replace_job`, `finish` and `update_dynamic` all preserve it, whether they
return normally or with an exception. -/
theorem edges_symmetric_invariant (fuel : Nat) (w : World) (st : DAGState)
    (jobs : List Job) (file : Option FileId) (visited : List Job) (skip : Bool)
    (job newjob : Job) (recursive updDyn : Bool)
    (hsym : edgesSymmetric st) :
    edgesSymmetric ((update fuel w st jobs file visited skip).1) ∧
    edgesSymmetric (delete_job fuel st job recursive) ∧
    edgesSymmetric ((replace_job fuel w st job newjob).1) ∧
    edgesSymmetric ((finish fuel w st job updDyn).1) ∧
    edgesSymmetric ((update_dynamic fuel w st job).1) :=
  ⟨(resolver_symm fuel).2.2.1 w st jobs file visited skip hsym,
    delete_job_symm fuel st job recursive hsym,
    replace_job_symm fuel w st job newjob hsym,
    finish_symm fuel w st job updDyn hsym,
    update_dynamic_symm fuel w st job hsym⟩

/-- Witness for C5 at a concrete symmetric state and concrete arguments. -/
theorem edges_symmetric_invariant_witness :
    edgesSymmetric ((update 3 w0 (emptySt false []) [exJobB] (some 10) []
      false).1) ∧
    edgesSymmetric (delete_job 3 (emptySt false []) exJobS true) := by
  have hsym : edgesSymmetric (emptySt false []) := by
    intro a b f2
    simp [emptySt, filesOf, rowOf, agetD, aget]
  have h := edges_symmetric_invariant 3 w0 (emptySt false []) [exJobB]
    (some 10) [] false exJobS exJobT true true hsym
  exact ⟨h.1, h.2.1⟩

/-! ### Claim C1 -/

/-- Counterexample to C1 as stated: candidate `exJobA` (preferred) fails with
`MissingInputException`, the later candidate `exJobB` would expand
successfully (middle conjunct), yet `update` re-raises the buffered failure
instead of returning `exJobB` — because the `break` taken when
`job < jobs[i-1]` precedes `producer = job`. -/
theorem update_buffered_cex :
    (update_ 2 w0 (emptySt false []) exJobA [] false).2
        = .error (.missingInput 1 [5] []) ∧
    (update_ 2 w0 (emptySt false []) exJobB [] false).2 = .ok () ∧
    (update 3 w0 (emptySt false []) [exJobA, exJobB] (some 10) [] false).2
        = .error (.missingInput 1 [5] []) := by
  refine ⟨?_, ?_, ?_⟩ <;>
    simp [update, updateLoop, update_, updateDeps, updateEpilogue, delete_job,
      deleteProducers, deleteConsumerEdges, deleteSets, sortCandidates, pySort,
      pyInsert, inInput, melem, aget, agetD, aset, aerase, akeys, sadd, sdel,
      collectPotential, file2jobs, jobMissingInput, wExists, addEdgePair,
      mapAdd, filesOf, rowOf, exJobA, exJobB, plainJob, emptySt, w0,
      Exn.bufferable, List.eraseDups]

/-- C1 (amended): a buffered `MissingInput`/`Cyclic` failure lets the next
candidate be tried, but a later successful candidate is only remembered and
returned when it is not strictly less preferred than its immediate
predecessor in the tried order; when it is strictly less preferred, the loop
breaks before remembering it and the first buffered failure is raised. -/
theorem update_buffered_amended (f : Nat) (w : World) (st : DAGState)
    (jobs : List Job) (A B : Job) (file : Option FileId) (visited : List Job)
    (skip : Bool) (e : Exn) (stA stB : DAGState)
    (hig : st.ignoreAmbiguity = false)
    (hsort : sortCandidates st.ignoreAmbiguity jobs = [A, B])
    (hcA : (inInput file A || melem A visited) = false)
    (hcB : (inInput file B || melem B visited) = false)
    (hA : update_ f w st A visited skip = (stA, .error e))
    (he : e.bufferable = true)
    (hB : update_ f w stA B visited skip = (stB, .ok ())) :
    update (f + 1) w st jobs file visited skip
      = if B.rank < A.rank then (stB, .error e) else (stB, .ok (some B)) := by
  have higA : stA.ignoreAmbiguity = false := by
    have h4 := (resolver_ignore f).1 w st A visited skip
    rw [hA] at h4
    rw [h4]
    exact hig
  simp only [update]
  rw [hsort]
  simp only [updateLoop]
  have hccA : ¬ ((inInput file A || melem A visited) = true) := by
    rw [hcA]
    exact Bool.false_ne_true
  rw [if_neg hccA, hA]
  dsimp only
  rw [if_pos he]
  have hccB : ¬ ((inInput file B || melem B visited) = true) := by
    rw [hcB]
    exact Bool.false_ne_true
  rw [if_neg hccB, hB]
  dsimp only
  rw [higA]
  simp only [Bool.or_false]
  by_cases hlt : B.rank < A.rank
  · rw [if_pos hlt, if_pos (by simpa using hlt)]
    simp [updateEpilogue]
  · rw [if_neg hlt, if_neg (by simpa using hlt)]
    simp [updateLoop, updateEpilogue]

/-- Witness for C1's amended theorem at the concrete two-candidate scenario
of the counterexample: the buffered error is raised. -/
theorem update_buffered_amended_witness :
    update 3 w0 (emptySt false []) [exJobA, exJobB] (some 10) [] false
      = ({ emptySt false [] with dependencies := [(exJobB, [])] },
          .error (.missingInput 1 [5] [])) := by
  have h := update_buffered_amended 2 w0 (emptySt false [])
    [exJobA, exJobB] exJobA exJobB (some 10) [] false
    (.missingInput 1 [5] []) (emptySt false [])
    { emptySt false [] with dependencies := [(exJobB, [])] }
    rfl (by decide) (by decide) (by decide)
    (by
      simp [update_, updateDeps, delete_job, deleteProducers,
        deleteConsumerEdges, deleteSets, collectPotential, file2jobs,
        jobMissingInput, wExists, melem, aget, agetD, aset, aerase, akeys,
        sadd, sdel, rowOf, exJobA, plainJob, emptySt, w0, List.eraseDups])
    rfl
    (by
      simp [update_, updateDeps, collectPotential, file2jobs, jobMissingInput,
        wExists, melem, aget, agetD, aset, akeys, sadd, rowOf, exJobB,
        plainJob, emptySt, w0, List.eraseDups])
  rw [h]
  norm_num [exJobA, exJobB, plainJob]

/-! ### Claim C2 -/

/-- C2: the ambiguity policy of `update`.  First conjunct: with
`ignore_ambiguity` unset, when a candidate expands successfully the loop
step raises `AmbiguousRule(file, current.rule, previous.rule)` precisely when
a previous candidate exists, a prior candidate already succeeded
(`producer ≠ None`), and the current candidate is not strictly less preferred
than the previous one; in every other situation it breaks or continues as
shown.  Second conjunct: with `ignore_ambiguity` set, `update` never raises
`AmbiguousRule` at all. -/
theorem update_ambiguity_policy :
    (∀ (f : Nat) (w : World) (st : DAGState) (job : Job) (rest : List Job)
      (prev producer : Option Job) (exc : List Exn) (cyc : List Job)
      (file : Option FileId) (visited : List Job) (skip : Bool)
      (st1 : DAGState),
      st.ignoreAmbiguity = false →
      (inInput file job || melem job visited) = false →
      update_ f w st job visited skip = (st1, .ok ()) →
      updateLoop f w st (job :: rest) prev producer exc cyc file visited skip
        = match prev, producer with
          | some p, some _ =>
            if job.rank < p.rank then updateEpilogue st1 producer exc cyc file
            else (st1, .error (.ambiguous file job.rule p.rule))
          | some p, none =>
            if job.rank < p.rank then updateEpilogue st1 producer exc cyc file
            else updateLoop f w st1 rest (some job) (some job) exc cyc file
              visited skip
          | none, _ =>
            updateLoop f w st1 rest (some job) (some job) exc cyc file visited
              skip) ∧
    (∀ (fuel : Nat) (w : World) (st : DAGState) (jobs : List Job)
      (file : Option FileId) (visited : List Job) (skip : Bool)
      (fl : Option FileId) (r1 r2 : Nat),
      st.ignoreAmbiguity = true →
      (update fuel w st jobs file visited skip).2
        ≠ .error (.ambiguous fl r1 r2)) := by
  constructor
  · intro f w st job rest prev producer exc cyc file visited skip st1 hig hc
      hupd
    simp only [updateLoop]
    have hcc : ¬ ((inInput file job || melem job visited) = true) := by
      rw [hc]
      exact Bool.false_ne_true
    rw [if_neg hcc, hupd]
    dsimp only
    rcases prev with _ | p
    · rfl
    · dsimp only
      rw [hig]
      simp only [Bool.or_false]
      rcases producer with _ | q
      · dsimp only
        by_cases hlt : job.rank < p.rank
        · rw [if_pos (by simpa using hlt), if_pos hlt]
        · rw [if_neg (by simpa using hlt), if_neg hlt]
      · dsimp only
        by_cases hlt : job.rank < p.rank
        · rw [if_pos (by simpa using hlt), if_pos hlt]
        · rw [if_neg (by simpa using hlt), if_neg hlt]
  · intro fuel w st jobs file visited skip fl r1 r2 hig hcontra
    have h4 := (resolver_noAmb fuel).2.2.1 w st jobs file visited skip
      (.ambiguous fl r1 r2) hig hcontra
    simp [Exn.isAmbErr] at h4

/-- Witness for C2 at a concrete loop step: previous candidate `exJobA`, a
remembered producer, and the tying candidate `exJobC` (equal rank) raise
`AmbiguousRule(file, current.rule, previous.rule)`; and a concrete ignored
`update` call returns without an ambiguity error. -/
theorem update_ambiguity_policy_witness :
    updateLoop 2 w0 (emptySt false []) [exJobC] (some exJobA) (some exJobA)
      [] [] (some 10) [] false
      = ({ emptySt false [] with dependencies := [(exJobC, [])] },
          .error (.ambiguous (some 10) 3 1)) ∧
    (update 3 w0 (emptySt true []) [exJobC, exJobB] (some 10) [] false).2
      ≠ .error (.ambiguous (some 10) 3 2) := by
  constructor
  · have h := update_ambiguity_policy.1 2 w0 (emptySt false []) exJobC []
      (some exJobA) (some exJobA) [] [] (some 10) [] false
      { emptySt false [] with dependencies := [(exJobC, [])] }
      rfl (by decide)
      (by
        simp [update_, updateDeps, collectPotential, file2jobs,
          jobMissingInput, wExists, melem, aget, agetD, aset, akeys, sadd,
          rowOf, exJobC, plainJob, emptySt, w0, List.eraseDups])
    rw [h]
    norm_num [exJobA, exJobC, plainJob]
  · exact update_ambiguity_policy.2 3 w0 (emptySt true []) [exJobC, exJobB]
      (some 10) [] false (some 10) 3 2 rfl

/-! ### Claim C3 -/

/-- Counterexample to C3 as stated: with `ignore_ambiguity` set and two
distinct candidates that each expand successfully (last two conjuncts),
`update` returns `exJobB`, which is strictly *less* preferred than `exJobC` —
the ascending sort puts the least preferred candidate first. -/
theorem update_ignore_cex :
    (update 3 w0 (emptySt true []) [exJobC, exJobB] (some 10) [] false).2
        = .ok (some exJobB) ∧
    exJobB.rank < exJobC.rank ∧
    (update_ 2 w0 (emptySt true []) exJobB [] false).2 = .ok () ∧
    (update_ 2 w0 (emptySt true []) exJobC [] false).2 = .ok () := by
  refine ⟨?_, by decide, ?_, ?_⟩ <;>
    simp [update, updateLoop, update_, updateDeps, updateEpilogue,
      sortCandidates, pySort, pyInsert, inInput, melem, aget, agetD, aset,
      akeys, sadd, collectPotential, file2jobs, jobMissingInput, wExists,
      rowOf, exJobB, exJobC, plainJob, emptySt, w0, List.eraseDups]

/-- C3 (amended): with `ignore_ambiguity` set, when the first two candidates
of the (ascending) sorted order both expand successfully, exactly one job is
chosen and returned — the head of the sorted order, which is a *least*
preferred candidate (its rank is minimal among all candidates); the second
candidate's expansion is still performed before the loop breaks. -/
theorem update_ignore_chooses_first (f : Nat) (w : World) (st : DAGState)
    (jobs : List Job) (j1 j2 : Job) (rest : List Job) (file : Option FileId)
    (visited : List Job) (skip : Bool) (st1 st2 : DAGState)
    (hig : st.ignoreAmbiguity = true)
    (hsort : sortCandidates st.ignoreAmbiguity jobs = j1 :: j2 :: rest)
    (hc1 : (inInput file j1 || melem j1 visited) = false)
    (hc2 : (inInput file j2 || melem j2 visited) = false)
    (h1 : update_ f w st j1 visited skip = (st1, .ok ()))
    (h2 : update_ f w st1 j2 visited skip = (st2, .ok ())) :
    update (f + 1) w st jobs file visited skip = (st2, .ok (some j1)) ∧
      ∀ x ∈ jobs, j1.rank ≤ x.rank := by
  have hig1 : st1.ignoreAmbiguity = true := by
    have h4 := (resolver_ignore f).1 w st j1 visited skip
    rw [h1] at h4
    rw [h4]
    exact hig
  constructor
  · simp only [update]
    rw [hsort]
    simp only [updateLoop]
    have hcc1 : ¬ ((inInput file j1 || melem j1 visited) = true) := by
      rw [hc1]
      exact Bool.false_ne_true
    rw [if_neg hcc1, h1]
    dsimp only
    have hcc2 : ¬ ((inInput file j2 || melem j2 visited) = true) := by
      rw [hc2]
      exact Bool.false_ne_true
    rw [if_neg hcc2, h2]
    dsimp only
    rw [hig1]
    simp [updateEpilogue]
  · intro x hx
    rw [hig] at hsort
    simp only [sortCandidates, if_true] at hsort
    have hmem : x ∈ pySort (fun a b => a.rank < b.rank) jobs :=
      mem_pySort.mpr hx
    have hpw := pairwise_pySort_asc jobs
    rw [hsort] at hmem hpw
    rw [List.pairwise_cons] at hpw
    rcases List.mem_cons.mp hmem with rfl | hmem2
    · exact Nat.le_refl _
    · exact hpw.1 x hmem2

/-- Witness for C3's amended theorem at the concrete scenario of the
counterexample: the least preferred candidate `exJobB` is chosen. -/
theorem update_ignore_chooses_first_witness :
    update 3 w0 (emptySt true []) [exJobC, exJobB] (some 10) [] false
      = ({ emptySt true [] with
            dependencies := [(exJobB, []), (exJobC, [])] },
          .ok (some exJobB)) ∧
    exJobB.rank ≤ exJobC.rank := by
  have h := update_ignore_chooses_first 2 w0 (emptySt true [])
    [exJobC, exJobB] exJobB exJobC [] (some 10) [] false
    { emptySt true [] with dependencies := [(exJobB, [])] }
    { emptySt true [] with dependencies := [(exJobB, []), (exJobC, [])] }
    rfl (by decide) (by decide) (by decide)
    (by
      simp [update_, updateDeps, collectPotential, file2jobs, jobMissingInput,
        wExists, melem, aget, agetD, aset, akeys, sadd, rowOf, exJobB,
        plainJob, emptySt, w0, List.eraseDups])
    (by
      simp [update_, updateDeps, collectPotential, file2jobs, jobMissingInput,
        wExists, melem, aget, agetD, aset, akeys, sadd, rowOf, exJobB, exJobC,
        plainJob, emptySt, w0, List.eraseDups])
  exact ⟨h.1, h.2 exJobC (by decide)⟩

/-! ### Claim C9 -/

/-- C9: `requested_files(j)` returns normally only with at most one consumer
in `depending`: the empty set with no consumer, that consumer's file set with
exactly one, and a failure (the `set(*values)` `TypeError`, modelled as
`none`) with two or more. -/
theorem requested_files_char (st : DAGState) (job : Job) :
    (rowOf st.depending job = [] → requested_files st job = some []) ∧
    (∀ c v, rowOf st.depending job = [(c, v)] →
      requested_files st job = some v) ∧
    (2 ≤ (rowOf st.depending job).length → requested_files st job = none) := by
  refine ⟨fun h => ?_, fun c v h => ?_, fun h => ?_⟩
  · simp [requested_files, h]
  · simp [requested_files, h]
  · unfold requested_files
    rcases hrow : rowOf st.depending job with _ | ⟨a, _ | ⟨b, t⟩⟩
    · rw [hrow] at h; simp at h
    · rw [hrow] at h; simp at h
    · simp

/-- Witness for C9 at concrete states with zero, one and two consumers. -/
theorem requested_files_char_witness :
    requested_files (emptySt false []) exJobS = some [] ∧
    requested_files
      { emptySt false [] with depending := [(exJobS, [(exJobT, [3])])] } exJobS
      = some [3] ∧
    requested_files
      { emptySt false [] with
        depending := [(exJobS, [(exJobA, [1]), (exJobB, [2])])] } exJobS
      = none :=
  ⟨(requested_files_char (emptySt false []) exJobS).1 (by decide),
    (requested_files_char _ exJobS).2.1 exJobT [3] (by decide),
    (requested_files_char _ exJobS).2.2 (by decide)⟩

/-! ### Claim C10 -/

/-- C10: the hue computation of `dot` divides by zero exactly on a
one-rule DAG: with `len(rules) = 1` it fails, with two or more rules it
succeeds. -/
theorem dot_rulecolor_char (st : DAGState) :
    (st.rules.length = 1 → dot_rulecolor st = none) ∧
    (2 ≤ st.rules.length → (dot_rulecolor st).isSome = true) := by
  constructor
  · intro h
    simp [dot_rulecolor, h]
  · intro h
    have hne : (3 : Int) * ((st.rules.length : Int) - 1) ≠ 0 := by
      have : (2 : Int) ≤ (st.rules.length : Int) := by exact_mod_cast h
      omega
    simp [dot_rulecolor, hne]

/-- Witness for C10: a one-rule DAG fails, a two-rule DAG succeeds. -/
theorem dot_rulecolor_char_witness :
    dot_rulecolor (emptySt false [7]) = none ∧
      (dot_rulecolor (emptySt false [7, 8])).isSome = true :=
  ⟨(dot_rulecolor_char (emptySt false [7])).1 (by decide),
    (dot_rulecolor_char (emptySt false [7, 8])).2 (by decide)⟩

/-! ### Claim C8 -/

/-- C8: `update_dynamic` on a job with empty `dynamic_wildcards` returns no
new job and leaves the edge maps, the rule set and the needrun, finished,
dynamic, ready and target-job sets exactly as they were. -/
theorem update_dynamic_empty_frame (fuel : Nat) (w : World) (st : DAGState)
    (job : Job) (h : job.dynamicWildcards = []) :
    update_dynamic fuel w st job = (st, .ok none) ∧
    (update_dynamic fuel w st job).1.dependencies = st.dependencies ∧
    (update_dynamic fuel w st job).1.depending = st.depending ∧
    (update_dynamic fuel w st job).1.rules = st.rules ∧
    (update_dynamic fuel w st job).1.needrun = st.needrun ∧
    (update_dynamic fuel w st job).1.finished = st.finished ∧
    (update_dynamic fuel w st job).1.dynamic = st.dynamic ∧
    (update_dynamic fuel w st job).1.readyJobs = st.readyJobs ∧
    (update_dynamic fuel w st job).1.targetjobs = st.targetjobs := by
  have hres : update_dynamic fuel w st job = (st, .ok none) := by
    simp [update_dynamic, h]
  refine ⟨hres, ?_, ?_, ?_, ?_, ?_, ?_, ?_, ?_⟩ <;> rw [hres]

/-- Witness for C8 at a concrete placeholder job in a concrete state. -/
theorem update_dynamic_empty_frame_witness :
    update_dynamic 50 w0 (emptySt false [1]) exJobS = (emptySt false [1], .ok none) :=
  (update_dynamic_empty_frame 50 w0 (emptySt false [1]) exJobS rfl).1

/-! ### Claim C4 -/

theorem mem_foldl_sadd_filter {p : Job → Bool} {l acc : List Job} {j : Job} :
    j ∈ l.foldl (fun a x => if p x then sadd a x else a) acc ↔
      j ∈ acc ∨ (j ∈ l ∧ p j = true) := by
  induction l generalizing acc with
  | nil => simp
  | cons x t ih =>
    simp only [List.foldl_cons, List.mem_cons]
    by_cases hp : p x = true
    · rw [if_pos hp, ih]
      simp only [mem_sadd]
      constructor
      · rintro ((hj | he) | ⟨ht, hpj⟩)
        · exact Or.inl hj
        · exact Or.inr ⟨Or.inl he, he ▸ hp⟩
        · exact Or.inr ⟨Or.inr ht, hpj⟩
      · rintro (hj | ⟨(he | ht), hpj⟩)
        · exact Or.inl (Or.inl hj)
        · exact Or.inl (Or.inr he)
        · exact Or.inr ⟨ht, hpj⟩
    · rw [if_neg hp, ih]
      constructor
      · rintro (hj | ⟨ht, hpj⟩)
        · exact Or.inl hj
        · exact Or.inr ⟨Or.inr ht, hpj⟩
      · rintro (hj | ⟨(he | ht), hpj⟩)
        · exact Or.inl hj
        · exact absurd (he ▸ hpj) hp
        · exact Or.inr ⟨ht, hpj⟩

/-- C4 (amended): `update_ready` only ever adds jobs: afterwards the ready
set holds exactly its previous members together with every traversed job that
needs to run, is unfinished and is `_ready`; stale members are not removed. -/
theorem update_ready_mem (fuel : Nat) (st : DAGState) (j : Job) :
    j ∈ (update_ready fuel st).readyJobs ↔
      j ∈ st.readyJobs ∨
        (j ∈ jobsList fuel st ∧ j ∈ st.needrun ∧ j ∉ st.finished ∧
          jobReady st j = true) := by
  unfold update_ready
  simp only
  rw [mem_foldl_sadd_filter]
  simp only [List.mem_filter, melem_iff, Bool.and_eq_true, Bool.not_eq_true']
  constructor
  · rintro (hj | ⟨⟨hjs, hnr⟩, hfin, hready⟩)
    · exact Or.inl hj
    · exact Or.inr ⟨hjs, hnr, melem_false_iff.mp hfin, hready⟩
  · rintro (hj | ⟨hjs, hnr, hfin, hready⟩)
    · exact Or.inl hj
    · exact Or.inr ⟨⟨hjs, hnr⟩, melem_false_iff.mpr hfin, hready⟩

/-! ### Claim C7 -/

theorem mem_foldl_append {α β : Type} (g : β → List α) (l : List β)
    (acc : List α) (x : α) :
    x ∈ l.foldl (fun a p => a ++ g p) acc ↔ x ∈ acc ∨ ∃ p ∈ l, x ∈ g p := by
  induction l generalizing acc with
  | nil => simp
  | cons p t ih =>
    simp only [List.foldl_cons, ih, List.mem_append, List.mem_cons]
    constructor
    · rintro ((h | h) | ⟨q, hq, hx⟩)
      · exact Or.inl h
      · exact Or.inr ⟨p, Or.inl rfl, h⟩
      · exact Or.inr ⟨q, Or.inr hq, hx⟩
    · rintro (h | ⟨q, (rfl | hq), hx⟩)
      · exact Or.inl (Or.inl h)
      · exact Or.inl (Or.inr hx)
      · exact Or.inr ⟨q, hq, hx⟩

/-- The consumer-side condition of `tempNeeded`, spelt as a proposition. -/
theorem tempNeeded_iff (st : DAGState) (job jobP : Job) (f : FileId) :
    tempNeeded st job jobP f = true ↔
      ∃ jf ∈ rowOf st.depending jobP,
        jf.1 ∉ st.finished ∧ jf.1 ≠ job ∧ f ∈ jf.2 := by
  unfold tempNeeded
  rw [List.any_eq_true]
  constructor
  · rintro ⟨jf, hjf, hcond⟩
    simp only [Bool.and_eq_true, Bool.not_eq_true', melem_false_iff,
      decide_eq_false_iff_not, melem_iff] at hcond
    exact ⟨jf, hjf, hcond.1.1, hcond.1.2, hcond.2⟩
  · rintro ⟨jf, hjf, hfin, hne, hf⟩
    refine ⟨jf, hjf, ?_⟩
    simp only [Bool.and_eq_true, Bool.not_eq_true', melem_false_iff,
      decide_eq_false_iff_not, melem_iff]
    exact ⟨⟨hfin, hne⟩, hf⟩

/-- C7: `handle_temp(j)` removes exactly the files supplied to `j` by some
producer, lying in that producer's temp outputs, that no unfinished consumer
other than `j` still requires from that producer. -/
theorem handle_temp_char (st : DAGState) (job : Job) (f : FileId) :
    f ∈ handle_temp st job ↔
      ∃ pf ∈ rowOf st.dependencies job,
        f ∈ pf.1.tempOutput ∧ f ∈ pf.2 ∧
          ¬ ∃ jf ∈ rowOf st.depending pf.1,
              jf.1 ∉ st.finished ∧ jf.1 ≠ job ∧ f ∈ jf.2 := by
  unfold handle_temp
  rw [mem_foldl_append]
  simp only [List.not_mem_nil, false_or]
  constructor
  · rintro ⟨pf, hpf, hmem⟩
    rw [List.mem_filter, List.mem_filter] at hmem
    obtain ⟨⟨ht, hin⟩, hneed⟩ := hmem
    rw [Bool.not_eq_true'] at hneed
    refine ⟨pf, hpf, ht, melem_iff.mp hin, fun hc => ?_⟩
    have := (tempNeeded_iff st job pf.1 f).mpr hc
    rw [this] at hneed
    exact Bool.true_eq_false.mp hneed
  · rintro ⟨pf, hpf, ht, hin, hneed⟩
    refine ⟨pf, hpf, ?_⟩
    rw [List.mem_filter, List.mem_filter]
    refine ⟨⟨ht, melem_iff.mpr hin⟩, ?_⟩
    rw [Bool.not_eq_true']
    rw [← tempNeeded_iff st job pf.1 f] at hneed
    cases hc : tempNeeded st job pf.1 f
    · rfl
    · exact absurd hc hneed

/-- Counterexample to C4 as stated: in a state whose ready set holds a
finished job outside `needrun`, `update_ready` leaves that job in the ready
set even though it is outside the claimed characterisation (which here is
empty because `needrun` is empty) — the set is not recomputed from
scratch. -/
theorem update_ready_mem_cex :
    exJobS ∈ (update_ready 10
      { emptySt false [] with readyJobs := [exJobS], finished := [exJobS] }).readyJobs
    ∧ exJobS ∉
      ({ emptySt false [] with
          readyJobs := [exJobS], finished := [exJobS] } : DAGState).needrun := by
  constructor <;> decide

/-! ### Claim C6: the missing-input rollback of `update_` -/

theorem melem_sdel_self {α : Type} [DecidableEq α] (x : α) (l : List α) :
    melem x (sdel l x) = false :=
  melem_false_iff.mpr (fun h => (mem_sdel.mp h).2 rfl)

theorem deleteSets_clears (st : DAGState) (job : Job) :
    melem job (deleteSets st job).needrun = false ∧
    melem job (deleteSets st job).finished = false ∧
    melem job (deleteSets st job).dynamic = false ∧
    melem job (deleteSets st job).readyJobs = false := by
  unfold deleteSets
  dsimp only
  refine ⟨?_, ?_, ?_, ?_⟩ <;>
    · split <;> split <;> split <;> split <;>
        simp_all [melem_sdel_self, melem_false_iff, mem_sdel, Bool.not_eq_true]

theorem deleteProducers_false_spec (fuel : Nat) (job : Job) :
    ∀ (ps : List (Job × List FileId)) (st : DAGState),
      (deleteProducers fuel st ps job false).dependencies = st.dependencies ∧
      ∀ a b f2,
        f2 ∈ filesOf (deleteProducers fuel st ps job false).depending a b ↔
          f2 ∈ filesOf st.depending a b ∧
            ¬(b = job ∧ a ∈ ps.map Prod.fst) := by
  intro ps
  induction ps with
  | nil =>
    intro st
    constructor
    · simp [deleteProducers]
    · intro a b f2
      simp [deleteProducers]
  | cons pp rest ih =>
    intro st
    have hstep : deleteProducers fuel st (pp :: rest) job false =
        deleteProducers fuel
          { st with depending := aset st.depending pp.1 (aerase (rowOf st.depending pp.1) job) }
          rest job false := by
      simp only [deleteProducers]
      rw [Bool.and_false, if_neg Bool.false_ne_true]
    rw [hstep]
    obtain ⟨ihd, ihp⟩ := ih
      { st with depending := aset st.depending pp.1 (aerase (rowOf st.depending pp.1) job) }
    constructor
    · rw [ihd]
    · intro a b f2
      rw [ihp a b f2]
      have hin : f2 ∈ filesOf ({ st with depending := aset st.depending pp.1 (aerase (rowOf st.depending pp.1) job) } : DAGState).depending a b ↔
          f2 ∈ filesOf st.depending a b ∧ ¬(a = pp.1 ∧ b = job) :=
        mapEraseInner_spec
      rw [hin]
      simp only [List.map_cons, List.mem_cons]
      constructor
      · rintro ⟨⟨ho, hnp⟩, hnr⟩
        refine ⟨ho, ?_⟩
        rintro ⟨hb, hor⟩
        rcases hor with hhd | htl
        · exact hnp ⟨hhd, hb⟩
        · exact hnr ⟨hb, htl⟩
      · rintro ⟨ho, hn⟩
        exact ⟨⟨ho, fun hc => hn ⟨hc.2, Or.inl hc.1⟩⟩,
          fun hc => hn ⟨hc.1, Or.inr hc.2⟩⟩

theorem delete_job_false_spec (f : Nat) (st : DAGState) (job : Job)
    (hsym : edgesSymmetric st) :
    (∀ a b f2,
      f2 ∈ filesOf (delete_job (f + 1) st job false).dependencies a b ↔
        f2 ∈ filesOf st.dependencies a b ∧ a ≠ job ∧ b ≠ job) ∧
    (∀ a b f2,
      f2 ∈ filesOf (delete_job (f + 1) st job false).depending a b ↔
        f2 ∈ filesOf st.depending a b ∧ a ≠ job ∧ b ≠ job) ∧
    melem job (delete_job (f + 1) st job false).needrun = false ∧
    melem job (delete_job (f + 1) st job false).finished = false ∧
    melem job (delete_job (f + 1) st job false).dynamic = false ∧
    melem job (delete_job (f + 1) st job false).readyJobs = false := by
  have hRes : delete_job (f + 1) st job false =
      (let st1 := deleteConsumerEdges st job
       let st2 : DAGState := { st1 with depending := aerase st1.depending job }
       let st3 := deleteProducers f st2 (rowOf st2.dependencies job) job false
       let st4 : DAGState :=
         { st3 with dependencies := aerase st3.dependencies job }
       deleteSets st4 job) := by
    simp only [delete_job]
  rw [hRes]
  set st1 := deleteConsumerEdges st job with hst1
  set st2 : DAGState := { st1 with depending := aerase st1.depending job }
    with hst2
  set ps := rowOf st2.dependencies job with hps
  set st3 := deleteProducers f st2 ps job false with hst3
  set st4 : DAGState := { st3 with dependencies := aerase st3.dependencies job }
    with hst4
  have h1d : ∀ a b f2, f2 ∈ filesOf st1.dependencies a b ↔
      f2 ∈ filesOf st.dependencies a b ∧
        ¬(b = job ∧ a ∈ (rowOf st.depending job).map Prod.fst) := by
    rw [hst1]
    unfold deleteConsumerEdges
    exact (dceFold_spec job (rowOf st.depending job) st).1
  have h1p : st1.depending = st.depending := by
    rw [hst1]
    unfold deleteConsumerEdges
    exact (dceFold_spec job (rowOf st.depending job) st).2
  have h21 : st2.dependencies = st1.dependencies := by rw [hst2]
  have h3d : st3.dependencies = st1.dependencies := by
    rw [hst3, (deleteProducers_false_spec f job ps st2).1, h21]
  have h3p : ∀ a b f2, f2 ∈ filesOf st3.depending a b ↔
      (f2 ∈ filesOf st.depending a b ∧ a ≠ job) ∧
        ¬(b = job ∧ a ∈ ps.map Prod.fst) := by
    intro a b f2
    rw [hst3, (deleteProducers_false_spec f job ps st2).2 a b f2]
    have h2p : f2 ∈ filesOf st2.depending a b ↔
        f2 ∈ filesOf st.depending a b ∧ a ≠ job := by
      have : f2 ∈ filesOf (aerase st1.depending job) a b ↔
          f2 ∈ filesOf st1.depending a b ∧ a ≠ job := mapEraseKey_spec
      rw [hst2]
      rw [show ({ st1 with depending := aerase st1.depending job } :
        DAGState).depending = aerase st1.depending job from rfl, this, h1p]
    rw [h2p]
  refine ⟨?_, ?_, (deleteSets_clears st4 job).1, (deleteSets_clears st4 job).2.1,
    (deleteSets_clears st4 job).2.2.1, (deleteSets_clears st4 job).2.2.2⟩
  · intro a b f2
    rw [(deleteSets_edges st4 job).1]
    rw [show st4.dependencies = aerase st3.dependencies job from by rw [hst4]]
    rw [mapEraseKey_spec, h3d, h1d a b f2]
    constructor
    · rintro ⟨⟨ho, hnk⟩, ha⟩
      refine ⟨ho, ha, fun hb => ?_⟩
      subst hb
      exact hnk ⟨rfl, filesOf_mem_keys ((hsym a b f2).mp ho)⟩
    · rintro ⟨ho, ha, hb⟩
      exact ⟨⟨ho, fun hc => hb hc.1⟩, ha⟩
  · intro a b f2
    rw [(deleteSets_edges st4 job).2]
    rw [show st4.depending = st3.depending from by rw [hst4]]
    rw [h3p a b f2]
    constructor
    · rintro ⟨⟨ho, ha⟩, hP⟩
      refine ⟨ho, ha, fun hb => ?_⟩
      subst hb
      apply hP
      refine ⟨rfl, ?_⟩
      have hdep : f2 ∈ filesOf st.dependencies b a := (hsym b a f2).mpr ho
      have hmem2 : f2 ∈ filesOf st2.dependencies b a := by
        rw [h21]
        exact (h1d b a f2).mpr ⟨hdep, fun hc => ha hc.1⟩
      rw [hps]
      exact filesOf_mem_keys hmem2
    · rintro ⟨ho, ha, hb⟩
      exact ⟨⟨ho, ha⟩, fun hc => hb hc.1⟩

/-- C6: when a job's missing inputs are not all covered by resolved producers,
`update_` rolls the expansion back with a non-recursive `delete_job` — leaving
the job with no incident edge in either map and outside every derived set —
and raises `MissingInputException` carrying the job's rule, the missing files
with no producing rule, and the buffered exceptions of the failed alternate
producers as causes. -/
theorem update_missing_rollback (f : Nat) (w : World) (st st2 : DAGState)
    (job : Job) (visited : List Job) (skip : Bool)
    (prods : List (FileId × Option Job)) (excs : List (FileId × Exn))
    (hsym : edgesSymmetric st)
    (hmemo : melem job (akeys st.dependencies) = false)
    (hdeps : updateDeps (f + 1) w
        { st with dependencies := aset st.dependencies job [] }
        (collectPotential w
          { st with dependencies := aset st.dependencies job [] } job)
        job (sadd visited job) (skip && job.dynamicOutput.isEmpty) [] []
      = (st2, .ok (prods, excs)))
    (hmiss : (jobMissingInput w job).filter
        (fun f2 => !(melem f2 (akeys prods))) ≠ []) :
    update_ (f + 2) w st job visited skip =
      (delete_job (f + 1)
        (prods.foldl (fun s fp =>
          match fp.2 with
          | some p => addEdgePair s job p fp.1
          | none => s) st2) job false,
       .error (.missingInput job.rule
         (((jobMissingInput w job).filter
             (fun f2 => !(melem f2 (akeys prods)))).filter
           (fun f2 => !(melem f2 (akeys excs))))
         (((jobMissingInput w job).filter
             (fun f2 => !(melem f2 (akeys prods)))).filterMap
           (fun f2 => aget excs f2)))) ∧
    (∀ a b f2,
      f2 ∉ filesOf (update_ (f + 2) w st job visited skip).1.dependencies a job ∧
      f2 ∉ filesOf (update_ (f + 2) w st job visited skip).1.dependencies job b ∧
      f2 ∉ filesOf (update_ (f + 2) w st job visited skip).1.depending a job ∧
      f2 ∉ filesOf (update_ (f + 2) w st job visited skip).1.depending job b) ∧
    melem job (update_ (f + 2) w st job visited skip).1.needrun = false ∧
    melem job (update_ (f + 2) w st job visited skip).1.finished = false ∧
    melem job (update_ (f + 2) w st job visited skip).1.dynamic = false ∧
    melem job (update_ (f + 2) w st job visited skip).1.readyJobs = false := by
  have hie : ((jobMissingInput w job).filter
      (fun f2 => !(melem f2 (akeys prods)))).isEmpty = false := by
    rcases hl : (jobMissingInput w job).filter
      (fun f2 => !(melem f2 (akeys prods))) with _ | ⟨x, xs⟩
    · exact absurd hl hmiss
    · rfl
  have hfirst : update_ (f + 2) w st job visited skip =
      (delete_job (f + 1)
        (prods.foldl (fun s fp =>
          match fp.2 with
          | some p => addEdgePair s job p fp.1
          | none => s) st2) job false,
       .error (.missingInput job.rule
         (((jobMissingInput w job).filter
             (fun f2 => !(melem f2 (akeys prods)))).filter
           (fun f2 => !(melem f2 (akeys excs))))
         (((jobMissingInput w job).filter
             (fun f2 => !(melem f2 (akeys prods)))).filterMap
           (fun f2 => aget excs f2)))) := by
    simp only [update_]
    rw [hmemo, if_neg Bool.false_ne_true]
    rw [hdeps]
    dsimp only
    rw [hie, if_neg Bool.false_ne_true]
  have hsym1 : edgesSymmetric
      { st with dependencies := aset st.dependencies job [] } :=
    aset_empty_symm hmemo hsym
  have hsym2 : edgesSymmetric st2 := by
    have h := (resolver_symm (f + 1)).2.2.2 w
      { st with dependencies := aset st.dependencies job [] }
      (collectPotential w
        { st with dependencies := aset st.dependencies job [] } job)
      job (sadd visited job) (skip && job.dynamicOutput.isEmpty) [] [] hsym1
    rw [hdeps] at h
    exact h
  have hsym3 : edgesSymmetric (prods.foldl (fun s fp =>
      match fp.2 with
      | some p => addEdgePair s job p fp.1
      | none => s) st2) := by
    refine foldl_pred edgesSymmetric _ ?_ prods st2 hsym2
    intro s x hs
    rcases x with ⟨g, op⟩
    rcases op with _ | p
    · exact hs
    · exact addEdgePair_symm hs
  obtain ⟨hdep, hdept, hnr, hfin, hdyn, hrdy⟩ :=
    delete_job_false_spec f (prods.foldl (fun s fp =>
      match fp.2 with
      | some p => addEdgePair s job p fp.1
      | none => s) st2) job hsym3
  rw [hfirst]
  dsimp only
  refine ⟨rfl, ?_, hnr, hfin, hdyn, hrdy⟩
  intro a b f2
  refine ⟨fun hc => ((hdep a job f2).mp hc).2.2 rfl,
    fun hc => ((hdep job b f2).mp hc).2.1 rfl,
    fun hc => ((hdept a job f2).mp hc).2.2 rfl,
    fun hc => ((hdept job b f2).mp hc).2.1 rfl⟩

/-- Witness for C6 on the concrete fixture: `exJobA`'s input file `5` has no
producing rule in the empty state, so its expansion rolls back and the job is
left outside the graph. -/
theorem update_missing_rollback_witness :
    melem exJobA (akeys (emptySt false []).dependencies) = false ∧
    melem exJobA (update_ 3 w0 (emptySt false []) exJobA [] false).1.needrun
      = false := by
  have hsym : edgesSymmetric (emptySt false []) := by
    intro a b f2
    simp [emptySt, filesOf, rowOf, agetD, aget]
  have hdeps : updateDeps 2 w0
      { emptySt false [] with
          dependencies := aset (emptySt false []).dependencies exJobA [] }
      (collectPotential w0
        { emptySt false [] with
            dependencies := aset (emptySt false []).dependencies exJobA [] }
        exJobA)
      exJobA (sadd [] exJobA) (false && exJobA.dynamicOutput.isEmpty) [] []
      = ({ emptySt false [] with
            dependencies := aset (emptySt false []).dependencies exJobA [] },
         .ok ([], [])) := by
    rw [show collectPotential w0
      { emptySt false [] with
          dependencies := aset (emptySt false []).dependencies exJobA [] }
      exJobA = [] from rfl]
    simp only [updateDeps]
  have h := update_missing_rollback 1 w0 (emptySt false []) _ exJobA [] false
    [] [] hsym (by decide) hdeps (by decide)
  exact ⟨by decide, h.2.2.1⟩

end SnakemakeDag
